import Mathlib

/-!
# Verification of the koushou package manager core

A shallow embedding of the koushou package manager (Rust) together with
proofs about its dependency resolver (`src/depres.rs`), repository lookup
(`src/resolve.rs`), install orchestration (`src/install.rs`), package
builder (`src/pkgutil.rs`), install engine (`src/install.rs`), repository
sync (`src/sync.rs`) and removal engine (`src/removal.rs`).

Rust `HashMap`s are embedded as association lists whose lookup returns the
most recently inserted binding for a key; `HashSet`s as lists.  Recursion in
the resolver is bounded by an explicit fuel parameter; exhausting fuel
yields the distinguished error `outOfFuel`, which models nontermination and
never occurs for sufficient fuel.
-/

set_option autoImplicit false

namespace Koushou

/-! ## Association-list maps (embedding of `HashMap`) -/

/-- Lookup in an association map: the first (most recent) binding wins. -/
def amGet {α β : Type} [DecidableEq α] : List (α × β) → α → Option β
  | [], _ => none
  | (k, v) :: rest, k' => if k = k' then some v else amGet rest k'

/-- Remove a key from an association map (embedding of `HashMap::remove`;
also used to express insert-with-replacement). -/
def amErase {α β : Type} [DecidableEq α] : List (α × β) → α → List (α × β)
  | [], _ => []
  | (a, b) :: rest, k => if a = k then amErase rest k else (a, b) :: amErase rest k

/-- Insert into an association map, replacing any previous binding
(embedding of `HashMap::insert`). -/
def amInsert {α β : Type} [DecidableEq α] (m : List (α × β)) (k : α) (v : β) :
    List (α × β) :=
  (k, v) :: amErase m k

theorem amGet_amErase_ne {α β : Type} [DecidableEq α]
    (m : List (α × β)) (k k' : α) (h : k ≠ k') :
    amGet (amErase m k) k' = amGet m k' := by
  induction m with
  | nil => rfl
  | cons p rest ih =>
    cases p with
    | mk a b =>
      by_cases hp : a = k
      · subst hp
        rw [show amErase ((a, b) :: rest) a = amErase rest a by simp [amErase]]
        rw [ih, show amGet ((a, b) :: rest) k' = amGet rest k' by simp [amGet, h]]
      · rw [show amErase ((a, b) :: rest) k = (a, b) :: amErase rest k by
          simp [amErase, hp]]
        by_cases hak' : a = k'
        · simp [amGet, hak']
        · simp only [amGet, if_neg hak']
          exact ih

theorem amGet_amErase_self {α β : Type} [DecidableEq α]
    (m : List (α × β)) (k : α) : amGet (amErase m k) k = none := by
  induction m with
  | nil => rfl
  | cons p rest ih =>
    cases p with
    | mk a b =>
      by_cases hp : a = k
      · simpa [amErase, hp] using ih
      · simpa [amErase, hp, amGet] using ih

theorem amGet_amInsert_self {α β : Type} [DecidableEq α]
    (m : List (α × β)) (k : α) (v : β) : amGet (amInsert m k v) k = some v := by
  simp [amInsert, amGet]

theorem amGet_amInsert_ne {α β : Type} [DecidableEq α]
    (m : List (α × β)) (k k' : α) (v : β) (h : k ≠ k') :
    amGet (amInsert m k v) k' = amGet m k' := by
  simp only [amInsert, amGet, if_neg h]
  exact amGet_amErase_ne m k k' h

theorem amGet_amInsert {α β : Type} [DecidableEq α]
    (m : List (α × β)) (k k' : α) (v : β) :
    amGet (amInsert m k v) k' = if k = k' then some v else amGet m k' := by
  by_cases h : k = k'
  · subst h; simp [amGet_amInsert_self]
  · simp [amGet_amInsert_ne m k k' v h, h]

/-! ## Dependency resolver (`src/depres.rs`)

Rust `String` ordering is byte-wise lexicographic on the UTF-8 encoding,
which coincides with lexicographic comparison of the code-point sequence;
it is embedded as the lexicographic order on `String.data : List Char`. -/

namespace Depres

structure PackageId where
  name : String
  version : String
  arch : String
  flavour : String
deriving DecidableEq

inductive VersionPredicate where
  | any
  | exact (v : String)
  | greaterOrEqual (v : String)
  | lessThan (v : String)
deriving DecidableEq

/-- `VersionPredicate::matches` (src/depres.rs:51-58). -/
def VersionPredicate.matchesVersion : VersionPredicate → String → Bool
  | .any, _ => true
  | .exact v, candidate => decide (candidate = v)
  | .greaterOrEqual v, candidate => decide (v.data ≤ candidate.data)
  | .lessThan v, candidate => decide (candidate.data < v.data)

structure Dependency where
  name : String
  predicate : VersionPredicate
deriving DecidableEq

structure PackageMetadata where
  id : PackageId
  url : String
  sha256 : String
  depends : List Dependency
deriving DecidableEq

/-- The `packages` field of `PackageUniverse` (src/depres.rs:77):
a map keyed by `(name, arch, flavour)`. -/
abbrev UniverseMap := List ((String × String × String) × List PackageMetadata)

/-- The `selected` accumulator of `resolve` (src/depres.rs:174). -/
abbrev Selected := List (String × PackageMetadata)

inductive DepresError where
  | packageNotFound (name : String)
  | noSolution (msg : String)
  | flavourMismatch (required system : String)
  | circularDependency (name : String)
  | versionConstraint (msg : String)
  | io
  | sqlite
  | outOfFuel
  | panicEmptyCandidates
deriving DecidableEq

/-- `candidates.iter().max_by_key(|m| &m.id.version)` (src/depres.rs:215-217):
maximum by version, returning the last of several equally-maximal elements,
exactly as Rust's `max_by_key` does. -/
def maxByVersion (c : PackageMetadata) (cs : List PackageMetadata) : PackageMetadata :=
  cs.foldl (fun b m => if m.id.version.data < b.id.version.data then b else m) c

/-- The `for dep in &best.depends` loop of `resolve_package`
(src/depres.rs:228-232), parameterized by the recursive call `f`. -/
def resolveDeps
    (f : String → Selected → List String → Except DepresError (Selected × List String)) :
    List Dependency → Selected → List String → Except DepresError (Selected × List String)
  | [], sel, vis => .ok (sel, vis)
  | d :: ds, sel, vis =>
    if (amGet sel d.name).isSome then resolveDeps f ds sel vis
    else
      match f d.name sel vis with
      | .error e => .error e
      | .ok (sel', vis') => resolveDeps f ds sel' vis'

/-- `PackageUniverse::resolve_package` (src/depres.rs:198-236), with explicit
fuel bounding the recursion depth.  `outOfFuel` models nontermination and
`panicEmptyCandidates` the `.unwrap()` panic on an empty candidate vector;
neither corresponds to a returned Rust error.  In the source, `visited`
receives `name` before the universe lookup; since every error discards
state, passing `name :: vis` only to the dependency loop is observationally
identical. -/
def resolvePackage (U : UniverseMap) (flavour arch : String) :
    Nat → String → Selected → List String → Except DepresError (Selected × List String)
  | 0, _, _, _ => .error .outOfFuel
  | fuel + 1, name, sel, vis =>
    if name ∈ vis then .error (.circularDependency name)
    else
      match amGet U (name, arch, flavour) with
      | none => .error (.packageNotFound name)
      | some [] => .error .panicEmptyCandidates
      | some (c :: cs) =>
        let best := maxByVersion c cs
        if best.id.flavour = flavour then
          match resolveDeps (resolvePackage U flavour arch fuel) best.depends
              (amInsert sel name best) (name :: vis) with
          | .error e => .error e
          | .ok (sel', vis') => .ok (sel', vis'.erase name)
        else .error (.flavourMismatch best.id.flavour flavour)

/-- The root loop of `PackageUniverse::resolve` (src/depres.rs:177-179). -/
def resolveRoots (U : UniverseMap) (flavour arch : String) (fuel : Nat) :
    List String → Selected → List String → Except DepresError (Selected × List String)
  | [], sel, vis => .ok (sel, vis)
  | r :: rs, sel, vis =>
    match resolvePackage U flavour arch fuel r sel vis with
    | .error e => .error e
    | .ok (sel', vis') => resolveRoots U flavour arch fuel rs sel' vis'

structure ResolutionSolution where
  packages : List PackageId
  downloadUrls : List (String × String)
  sha256Sums : List (String × String)
deriving DecidableEq

/-- Building the `ResolutionSolution` from the selected map
(src/depres.rs:181-195). -/
def buildSolution (sel : Selected) : ResolutionSolution where
  packages := sel.map (fun p => p.2.id)
  downloadUrls := sel.map (fun p => (p.2.id.name, p.2.url))
  sha256Sums := sel.map (fun p => (p.2.id.name, p.2.sha256))

/-- `PackageUniverse::resolve` (src/depres.rs:168-196). -/
def resolve (U : UniverseMap) (roots : List String) (flavour arch : String)
    (fuel : Nat) : Except DepresError ResolutionSolution :=
  match resolveRoots U flavour arch fuel roots [] [] with
  | .error e => .error e
  | .ok (sel, _) => .ok (buildSolution sel)

/-- Whether a resolver outcome is the `CircularDependency` error. -/
def isCircularErr {α : Type} : Except DepresError α → Bool
  | .error (.circularDependency _) => true
  | _ => false

/-- Whether a resolver outcome is the `VersionConstraint` error. -/
def isVersionConstraintErr {α : Type} : Except DepresError α → Bool
  | .error (.versionConstraint _) => true
  | _ => false

/-- Whether a selected map is dependency-closed: every dependency edge of
every selected package has a selection under the dependency's name. -/
def closedSel (sel : Selected) : Bool :=
  sel.all fun p => p.2.depends.all fun d => (amGet sel d.name).isSome

/-- The names of the packages of a successful resolution (empty on error). -/
def solutionNames : Except DepresError ResolutionSolution → List String
  | .ok s => s.packages.map (fun i => i.name)
  | .error _ => []

/-! ### Resolver lemmas -/

theorem amGet_map {α β γ : Type} [DecidableEq α] (g : β → γ)
    (m : List (α × β)) (k : α) :
    Koushou.amGet (m.map (fun p => (p.1, g p.2))) k = (Koushou.amGet m k).map g := by
  induction m with
  | nil => rfl
  | cons p rest ih =>
    cases p with
    | mk a b => by_cases h : a = k <;> simp [Koushou.amGet, h, ih]

/-- Any error produced by the dependency loop comes from some call of `f`. -/
theorem resolveDeps_error_source
    (f : String → Selected → List String → Except DepresError (Selected × List String))
    (ds : List Dependency) :
    ∀ (sel : Selected) (vis : List String) (e : DepresError),
      resolveDeps f ds sel vis = .error e →
      ∃ n s v, f n s v = .error e := by
  induction ds with
  | nil => intro sel vis e h; simp [resolveDeps] at h
  | cons d ds ih =>
    intro sel vis e h
    simp only [resolveDeps] at h
    by_cases hg : (amGet sel d.name).isSome = true
    · rw [if_pos hg] at h
      exact ih _ _ _ h
    · rw [if_neg hg] at h
      rcases hf : f d.name sel vis with e' | p
      · rw [hf] at h
        cases h
        exact ⟨d.name, sel, vis, hf⟩
      · rcases p with ⟨sel', vis'⟩
        rw [hf] at h
        exact ih _ _ _ h

/-- Every key of `sel` is still bound in `sel'`. -/
def SelMono (sel sel' : Selected) : Prop :=
  ∀ k, (amGet sel k).isSome = true → (amGet sel' k).isSome = true

/-- Every binding of `sel'` either was already in `sel`, or is
dependency-closed in `sel'` and carries the system flavour. -/
def SelTransfer (fl : String) (sel sel' : Selected) : Prop :=
  ∀ k m, amGet sel' k = some m →
    amGet sel k = some m ∨
    ((∀ d ∈ m.depends, (amGet sel' d.name).isSome = true) ∧ m.id.flavour = fl)

theorem selMono_refl (sel : Selected) : SelMono sel sel := fun _ h => h

theorem selMono_comp {s0 s1 s2 : Selected} (h1 : SelMono s0 s1)
    (h2 : SelMono s1 s2) : SelMono s0 s2 := fun k h => h2 k (h1 k h)

theorem selTransfer_refl (fl : String) (sel : Selected) : SelTransfer fl sel sel :=
  fun _ _ h => Or.inl h

theorem selTransfer_comp {fl : String} {s0 s1 s2 : Selected}
    (h1 : SelTransfer fl s0 s1) (h2 : SelTransfer fl s1 s2)
    (hm : SelMono s1 s2) : SelTransfer fl s0 s2 := by
  intro k m hk
  rcases h2 k m hk with h | h
  · rcases h1 k m h with h' | h'
    · exact Or.inl h'
    · exact Or.inr ⟨fun d hd => hm d.name (h'.1 d hd), h'.2⟩
  · exact Or.inr h

theorem amGet_amInsert_isSome {α β : Type} [DecidableEq α]
    (m : List (α × β)) (k k' : α) (v : β)
    (h : (amGet m k').isSome = true) :
    (amGet (amInsert m k v) k').isSome = true := by
  rw [amGet_amInsert]
  by_cases hk : k = k' <;> simp [hk, h]

/-- The key correctness bundle for `resolve_package`: it never reports
`CircularDependency` when every name in `visited` is already selected and
the requested name is not in `visited`, and a successful call restores
`visited`, only grows `selected`, binds the requested name, and adds only
dependency-closed, flavour-matching bindings. -/
def PkgInv (U : UniverseMap) (fl ar : String) (fuel : Nat) : Prop :=
  ∀ name sel vis,
    (∀ n ∈ vis, (amGet sel n).isSome = true) →
    name ∉ vis →
    (∀ n, resolvePackage U fl ar fuel name sel vis ≠ .error (.circularDependency n)) ∧
    (∀ sel' vis', resolvePackage U fl ar fuel name sel vis = .ok (sel', vis') →
      vis' = vis ∧ SelMono sel sel' ∧ (amGet sel' name).isSome = true ∧
      SelTransfer fl sel sel')

theorem depsInv (U : UniverseMap) (fl ar : String) (fuel : Nat)
    (IH : PkgInv U fl ar fuel) (ds : List Dependency) :
    ∀ sel vis,
      (∀ n ∈ vis, (amGet sel n).isSome = true) →
      (∀ n, resolveDeps (resolvePackage U fl ar fuel) ds sel vis ≠
        .error (.circularDependency n)) ∧
      (∀ sel' vis', resolveDeps (resolvePackage U fl ar fuel) ds sel vis =
          .ok (sel', vis') →
        vis' = vis ∧ SelMono sel sel' ∧
        (∀ d ∈ ds, (amGet sel' d.name).isSome = true) ∧
        SelTransfer fl sel sel') := by
  induction ds with
  | nil =>
    intro sel vis _
    refine ⟨fun n h => by simp [resolveDeps] at h, ?_⟩
    intro sel' vis' h
    simp only [resolveDeps] at h
    cases h
    exact ⟨rfl, selMono_refl sel, by simp, selTransfer_refl fl sel⟩
  | cons d ds ih =>
    intro sel vis hvs
    by_cases hg : (amGet sel d.name).isSome = true
    · have hrw : resolveDeps (resolvePackage U fl ar fuel) (d :: ds) sel vis =
          resolveDeps (resolvePackage U fl ar fuel) ds sel vis := by
        simp only [resolveDeps, if_pos hg]
      rw [hrw]
      rcases ih sel vis hvs with ⟨hne, hok⟩
      refine ⟨hne, ?_⟩
      intro sel' vis' h
      rcases hok sel' vis' h with ⟨hv, hm, hds, ht⟩
      have hall : ∀ d' ∈ d :: ds, (amGet sel' d'.name).isSome = true := by
        intro d' hd'
        rcases List.mem_cons.mp hd' with hd' | hd'
        · rw [hd']
          exact hm d.name hg
        · exact hds d' hd'
      exact ⟨hv, hm, hall, ht⟩
    · have hnv : d.name ∉ vis := fun hmem => hg (hvs d.name hmem)
      rcases IH d.name sel vis hvs hnv with ⟨hne1, hok1⟩
      rcases hf : resolvePackage U fl ar fuel d.name sel vis with e | p
      · have hrw : resolveDeps (resolvePackage U fl ar fuel) (d :: ds) sel vis =
            .error e := by
          simp only [resolveDeps, if_neg hg, hf]
        rw [hrw]
        refine ⟨fun n h => ?_, fun sel' vis' h => by cases h⟩
        cases h
        exact hne1 n hf
      · rcases p with ⟨s1, v1⟩
        rcases hok1 s1 v1 hf with ⟨hv1, hm1, hd1, ht1⟩
        have hrw : resolveDeps (resolvePackage U fl ar fuel) (d :: ds) sel vis =
            resolveDeps (resolvePackage U fl ar fuel) ds s1 vis := by
          simp only [resolveDeps, if_neg hg, hf, hv1]
        rw [hrw]
        have hvs1 : ∀ n ∈ vis, (amGet s1 n).isSome = true :=
          fun n hn => hm1 n (hvs n hn)
        rcases ih s1 vis hvs1 with ⟨hne2, hok2⟩
        refine ⟨hne2, ?_⟩
        intro sel' vis' h
        rcases hok2 sel' vis' h with ⟨hv, hm2, hds2, ht2⟩
        refine ⟨hv, selMono_comp hm1 hm2, ?_, selTransfer_comp ht1 ht2 hm2⟩
        intro d' hd'
        rcases List.mem_cons.mp hd' with hd' | hd'
        · rw [hd']
          exact hm2 d.name hd1
        · exact hds2 d' hd'

theorem pkgInv (U : UniverseMap) (fl ar : String) :
    ∀ fuel, PkgInv U fl ar fuel := by
  intro fuel
  induction fuel with
  | zero =>
    intro name sel vis hvs hnv
    exact ⟨fun n h => by simp [resolvePackage] at h,
           fun sel' vis' h => by simp [resolvePackage] at h⟩
  | succ fuel ih =>
    intro name sel vis hvs hnv
    rcases hU : amGet U (name, ar, fl) with _ | cands
    · have hstep : resolvePackage U fl ar (fuel + 1) name sel vis =
          .error (.packageNotFound name) := by
        simp only [resolvePackage, if_neg hnv, hU]
      rw [hstep]
      exact ⟨fun n h => by simp at h, fun sel' vis' h => by simp at h⟩
    · rcases cands with _ | ⟨c, cs⟩
      · have hstep : resolvePackage U fl ar (fuel + 1) name sel vis =
            .error .panicEmptyCandidates := by
          simp only [resolvePackage, if_neg hnv, hU]
        rw [hstep]
        exact ⟨fun n h => by simp at h, fun sel' vis' h => by simp at h⟩
      · by_cases hfl : (maxByVersion c cs).id.flavour = fl
        · have hstep : resolvePackage U fl ar (fuel + 1) name sel vis =
              match resolveDeps (resolvePackage U fl ar fuel)
                  (maxByVersion c cs).depends
                  (amInsert sel name (maxByVersion c cs)) (name :: vis) with
              | .error e => .error e
              | .ok (sel', vis') => .ok (sel', vis'.erase name) := by
            simp only [resolvePackage, if_neg hnv, hU, if_pos hfl]
          have hvs1 : ∀ n ∈ name :: vis,
              (amGet (amInsert sel name (maxByVersion c cs)) n).isSome = true := by
            intro n hn
            rcases List.mem_cons.mp hn with hn | hn
            · rw [hn, amGet_amInsert_self]
              rfl
            · exact amGet_amInsert_isSome sel name n _ (hvs n hn)
          rcases depsInv U fl ar fuel ih (maxByVersion c cs).depends
              (amInsert sel name (maxByVersion c cs)) (name :: vis) hvs1 with
            ⟨hneD, hokD⟩
          rcases hD : resolveDeps (resolvePackage U fl ar fuel)
              (maxByVersion c cs).depends
              (amInsert sel name (maxByVersion c cs)) (name :: vis) with e | p
          · rw [hD] at hstep
            rw [hstep]
            constructor
            · intro n h
              injection h with h1
              subst h1
              exact hneD n hD
            · intro sel' vis' h
              simp at h
          · rcases p with ⟨s2, v2⟩
            rw [hD] at hstep
            rw [hstep]
            rcases hokD s2 v2 hD with ⟨hv2, hm2, hds2, ht2⟩
            constructor
            · intro n h
              simp at h
            · intro sel' vis' h
              injection h with h1
              injection h1 with hA hB
              subst hA
              subst hB
              have hvis : v2.erase name = vis := by
                rw [hv2]
                exact List.erase_cons_head name vis
              have hmono : SelMono sel s2 :=
                fun k hk => hm2 k (amGet_amInsert_isSome sel name k _ hk)
              have hname : (amGet s2 name).isSome = true := by
                apply hm2 name
                rw [amGet_amInsert_self]
                rfl
              refine ⟨hvis, hmono, hname, ?_⟩
              intro k m hk
              rcases ht2 k m hk with hleft | hright
              · rw [amGet_amInsert] at hleft
                by_cases hnk : name = k
                · rw [if_pos hnk] at hleft
                  have hm : m = maxByVersion c cs := by
                    cases hleft
                    rfl
                  refine Or.inr ⟨?_, by rw [hm]; exact hfl⟩
                  intro d hd
                  rw [hm] at hd
                  exact hds2 d hd
                · rw [if_neg hnk] at hleft
                  exact Or.inl hleft
              · exact Or.inr hright
        · have hstep : resolvePackage U fl ar (fuel + 1) name sel vis =
              .error (.flavourMismatch (maxByVersion c cs).id.flavour fl) := by
            simp only [resolvePackage, if_neg hnv, hU, if_neg hfl]
          rw [hstep]
          exact ⟨fun n h => by simp at h, fun sel' vis' h => by simp at h⟩

theorem rootsInv (U : UniverseMap) (fl ar : String) (fuel : Nat)
    (roots : List String) :
    ∀ sel,
      (∀ n, resolveRoots U fl ar fuel roots sel [] ≠
        .error (.circularDependency n)) ∧
      (∀ sel' vis', resolveRoots U fl ar fuel roots sel [] = .ok (sel', vis') →
        vis' = [] ∧ SelMono sel sel' ∧ SelTransfer fl sel sel') := by
  induction roots with
  | nil =>
    intro sel
    constructor
    · intro n h
      simp [resolveRoots] at h
    · intro sel' vis' h
      simp only [resolveRoots] at h
      injection h with h1
      injection h1 with hA hB
      subst hA
      subst hB
      exact ⟨rfl, selMono_refl sel, selTransfer_refl fl sel⟩
  | cons r rs ih =>
    intro sel
    rcases pkgInv U fl ar fuel r sel [] (by simp) (by simp) with ⟨hne1, hok1⟩
    rcases hf : resolvePackage U fl ar fuel r sel [] with e | p
    · have hrw : resolveRoots U fl ar fuel (r :: rs) sel [] = .error e := by
        simp only [resolveRoots, hf]
      rw [hrw]
      constructor
      · intro n h
        injection h with h1
        subst h1
        exact hne1 n hf
      · intro sel' vis' h
        simp at h
    · rcases p with ⟨s1, v1⟩
      rcases hok1 s1 v1 hf with ⟨hv1, hm1, _, ht1⟩
      have hrw : resolveRoots U fl ar fuel (r :: rs) sel [] =
          resolveRoots U fl ar fuel rs s1 [] := by
        simp only [resolveRoots, hf, hv1]
      rw [hrw]
      rcases ih s1 with ⟨hne2, hok2⟩
      refine ⟨hne2, ?_⟩
      intro sel' vis' h
      rcases hok2 sel' vis' h with ⟨hv, hm2, ht2⟩
      exact ⟨hv, selMono_comp hm1 hm2, selTransfer_comp ht1 ht2 hm2⟩

theorem amGet_universe_none (U : UniverseMap) (n ar fl : String)
    (habs : ∀ e ∈ U, e.1.1 = n → e.1.2.2 ≠ fl) :
    amGet U (n, ar, fl) = none := by
  induction U with
  | nil => rfl
  | cons e rest ih =>
    rcases e with ⟨⟨a, b, c⟩, v⟩
    have hrest : ∀ e ∈ rest, e.1.1 = n → e.1.2.2 ≠ fl :=
      fun e he => habs e (List.mem_cons_of_mem _ he)
    by_cases hk : (a, b, c) = (n, ar, fl)
    · exfalso
      have h1 : a = n := congrArg (fun p => p.1) hk
      have h2 : c = fl := congrArg (fun p => p.2.2) hk
      exact habs ((a, b, c), v) (List.mem_cons_self _ _) h1 h2
    · rw [show amGet (((a, b, c), v) :: rest) (n, ar, fl) =
          amGet rest (n, ar, fl) by simp [amGet, hk]]
      exact ih hrest

theorem maxByVersion_mem (c : PackageMetadata) (cs : List PackageMetadata) :
    maxByVersion c cs ∈ c :: cs := by
  induction cs generalizing c with
  | nil => simp [maxByVersion]
  | cons m cs ih =>
    have hstep : maxByVersion c (m :: cs) =
        maxByVersion (if m.id.version.data < c.id.version.data then c else m) cs := by
      simp [maxByVersion]
    rw [hstep]
    rcases List.mem_cons.mp
      (ih (if m.id.version.data < c.id.version.data then c else m)) with h | h
    · by_cases hc : m.id.version.data < c.id.version.data
      · rw [if_pos hc] at h ⊢
        rw [h]
        exact List.mem_cons_self _ _
      · rw [if_neg hc] at h ⊢
        rw [h]
        exact List.mem_cons_of_mem _ (List.mem_cons_self _ _)
    · exact List.mem_cons_of_mem _ (List.mem_cons_of_mem _ h)

theorem maxByVersion_ge (c : PackageMetadata) (cs : List PackageMetadata) :
    ∀ x ∈ c :: cs, x.id.version.data ≤ (maxByVersion c cs).id.version.data := by
  induction cs generalizing c with
  | nil =>
    intro x hx
    rcases List.mem_cons.mp hx with hx | hx
    · rw [hx]
      simp [maxByVersion]
    · simp at hx
  | cons m cs ih =>
    have hstep : maxByVersion c (m :: cs) =
        maxByVersion (if m.id.version.data < c.id.version.data then c else m) cs := by
      simp [maxByVersion]
    intro x hx
    rw [hstep]
    have hhead : ∀ y ∈ [c, m], y.id.version.data ≤
        (if m.id.version.data < c.id.version.data then c else m).id.version.data := by
      intro y hy
      by_cases hc : m.id.version.data < c.id.version.data
      · rw [if_pos hc]
        rcases List.mem_cons.mp hy with hy | hy
        · rw [hy]
        · have : y = m := by simpa using hy
          rw [this]
          exact le_of_lt hc
      · rw [if_neg hc]
        rcases List.mem_cons.mp hy with hy | hy
        · rw [hy]
          exact not_lt.mp hc
        · have : y = m := by simpa using hy
          rw [this]
    have hrec := ih (if m.id.version.data < c.id.version.data then c else m)
    rcases List.mem_cons.mp hx with hx | hx
    · exact le_trans (hhead x (by rw [hx]; simp))
        (hrec _ (List.mem_cons_self _ _))
    · rcases List.mem_cons.mp hx with hx | hx
      · exact le_trans (hhead x (by rw [hx]; simp))
          (hrec _ (List.mem_cons_self _ _))
      · exact hrec x (List.mem_cons_of_mem _ hx)

/-! ### Resolver claim theorems and fixtures -/

/-- Fixture: package `a` at version 1.0 depending on `b`. -/
def closMetaA : PackageMetadata :=
  { id := { name := "a", version := "1.0", arch := "x86_64", flavour := "glibc" }
  , url := "ua", sha256 := "sa"
  , depends := [{ name := "b", predicate := .greaterOrEqual "0.5" }] }

/-- Fixture: package `b` at version 2.0 with no dependencies. -/
def closMetaB : PackageMetadata :=
  { id := { name := "b", version := "2.0", arch := "x86_64", flavour := "glibc" }
  , url := "ub", sha256 := "sb", depends := [] }

/-- Fixture universe for the closure witness: `a → b`. -/
def closU : UniverseMap :=
  [ (("a", "x86_64", "glibc"), [closMetaA])
  , (("b", "x86_64", "glibc"), [closMetaB]) ]

/-- C3: for every universe and root set on which resolution succeeds, the
returned solution is dependency-closed: for every selected package and
every dependency edge of it, the solution contains a selection under the
dependency's name. -/
theorem resolver_solution_closed (U : UniverseMap) (roots : List String)
    (fl ar : String) (fuel : Nat) (sel : Selected) (vis : List String)
    (h : resolveRoots U fl ar fuel roots [] [] = .ok (sel, vis)) :
    resolve U roots fl ar fuel = .ok (buildSolution sel) ∧
    ∀ k m, amGet sel k = some m →
      ∀ d ∈ m.depends, (amGet sel d.name).isSome = true := by
  constructor
  · simp only [resolve, h]
  · intro k m hk d hd
    rcases (rootsInv U fl ar fuel roots []).2 sel vis h with ⟨_, _, ht⟩
    rcases ht k m hk with hl | hr
    · simp [amGet] at hl
    · exact hr.1 d hd

/-- Witness for C3 at the fixture universe `a → b`. -/
theorem resolver_solution_closed_witness :
    resolve closU ["a"] "glibc" "x86_64" 3 =
      .ok (buildSolution [("b", closMetaB), ("a", closMetaA)]) ∧
    ∀ k m, amGet [("b", closMetaB), ("a", closMetaA)] k = some m →
      ∀ d ∈ m.depends,
        (amGet [("b", closMetaB), ("a", closMetaA)] d.name).isSome = true :=
  resolver_solution_closed closU ["a"] "glibc" "x86_64" 3
    [("b", closMetaB), ("a", closMetaA)] [] (by rfl)

/-- C4 (amended): resolution never returns `CircularDependency`; every
recursive descent into a dependency is pre-empted by the `selected` guard,
so a name on the current recursion path is never re-entered. -/
theorem resolver_never_circular (U : UniverseMap) (roots : List String)
    (fl ar : String) (fuel : Nat) :
    isCircularErr (resolve U roots fl ar fuel) = false := by
  rcases h : resolveRoots U fl ar fuel roots [] [] with e | p
  · have hres : resolve U roots fl ar fuel = .error e := by
      simp only [resolve, h]
    rw [hres]
    cases e with
    | packageNotFound n => rfl
    | noSolution m => rfl
    | flavourMismatch a b => rfl
    | circularDependency n =>
      exact absurd h ((rootsInv U fl ar fuel roots []).1 n)
    | versionConstraint m => rfl
    | io => rfl
    | sqlite => rfl
    | outOfFuel => rfl
    | panicEmptyCandidates => rfl
  · rcases p with ⟨sel, vis⟩
    have hres : resolve U roots fl ar fuel = .ok (buildSolution sel) := by
      simp only [resolve, h]
    rw [hres]
    rfl

/-- Fixture: package `a` depending on `b` (cycle half 1). -/
def cycMetaA : PackageMetadata :=
  { id := { name := "a", version := "1.0", arch := "x86_64", flavour := "glibc" }
  , url := "ua", sha256 := "sa"
  , depends := [{ name := "b", predicate := .any }] }

/-- Fixture: package `b` depending on `a` (cycle half 2). -/
def cycMetaB : PackageMetadata :=
  { id := { name := "b", version := "1.0", arch := "x86_64", flavour := "glibc" }
  , url := "ub", sha256 := "sb"
  , depends := [{ name := "a", predicate := .any }] }

/-- Fixture universe with the dependency cycle `a → b → a`. -/
def cycU : UniverseMap :=
  [ (("a", "x86_64", "glibc"), [cycMetaA])
  , (("b", "x86_64", "glibc"), [cycMetaB]) ]

/-- Counterexample to C4: on the cyclic universe `a → b → a` with root
list `[a]`, resolution does not fail with `CircularDependency` — it
succeeds, selecting both `b` and `a` (the back edge `b → a` is skipped
because `a` is already selected). -/
theorem cycle_universe_resolves :
    solutionNames (resolve cycU ["a"] "glibc" "x86_64" 4) = ["b", "a"] := by rfl

/-- Fixture universe whose only entries for `x` are under flavour `musl`. -/
def isoU : UniverseMap :=
  [ (("x", "x86_64", "musl"),
     [{ id := { name := "x", version := "1.0", arch := "x86_64", flavour := "musl" }
      , url := "ux", sha256 := "sx", depends := [] }]) ]

/-- C5: resolver lookup is keyed by `(name, arch, flavour)`: when a name's
entries all carry a flavour different from the system flavour, resolving
that name fails with `PackageNotFound` naming it, and a successful
resolution never selects a package of mismatched flavour. -/
theorem resolver_flavour_isolation (U : UniverseMap) (n fl ar : String)
    (fuel fuel' : Nat) (roots : List String) (sel : Selected) (vis : List String)
    (habs : ∀ e ∈ U, e.1.1 = n → e.1.2.2 ≠ fl)
    (hok : resolveRoots U fl ar fuel' roots [] [] = .ok (sel, vis)) :
    resolve U [n] fl ar (fuel + 1) = .error (.packageNotFound n) ∧
    ∀ k m, amGet sel k = some m → m.id.flavour = fl := by
  constructor
  · have hnone := amGet_universe_none U n ar fl habs
    have h1 : resolvePackage U fl ar (fuel + 1) n [] [] =
        .error (.packageNotFound n) := by
      simp only [resolvePackage, if_neg (List.not_mem_nil n), hnone]
    simp only [resolve, resolveRoots, h1]
  · intro k m hk
    rcases (rootsInv U fl ar fuel' roots []).2 sel vis hok with ⟨_, _, ht⟩
    rcases ht k m hk with hl | hr
    · simp [amGet] at hl
    · exact hr.2

/-- Witness for C5 at the single-flavour fixture universe. -/
theorem resolver_flavour_isolation_witness :
    resolve isoU ["x"] "glibc" "x86_64" 3 = .error (.packageNotFound "x") ∧
    ∀ k m, amGet ([] : Selected) k = some m → m.id.flavour = "glibc" :=
  resolver_flavour_isolation isoU "x" "glibc" "x86_64" 2 0 [] [] []
    (by decide) (by rfl)

/-! ### Version predicates are inert (claim C7) -/

/-- Replace a dependency's version predicate by `Any`. -/
def stripDep (d : Dependency) : Dependency := { d with predicate := .any }

/-- Replace every dependency predicate of a package by `Any`. -/
def stripMeta (m : PackageMetadata) : PackageMetadata :=
  { m with depends := m.depends.map stripDep }

/-- Replace every dependency predicate in a universe by `Any`. -/
def stripUniverse (U : UniverseMap) : UniverseMap :=
  U.map (fun e => (e.1, e.2.map stripMeta))

def stripSel (sel : Selected) : Selected :=
  sel.map (fun p => (p.1, stripMeta p.2))

def stripRes : Except DepresError (Selected × List String) →
    Except DepresError (Selected × List String)
  | .error e => .error e
  | .ok (sel, vis) => .ok (stripSel sel, vis)

theorem amGet_stripUniverse (U : UniverseMap) (k : String × String × String) :
    amGet (stripUniverse U) k = (amGet U k).map (List.map stripMeta) :=
  amGet_map (List.map stripMeta) U k

theorem amGet_stripSel (sel : Selected) (k : String) :
    amGet (stripSel sel) k = (amGet sel k).map stripMeta :=
  amGet_map stripMeta sel k

theorem isSome_amGet_stripSel (sel : Selected) (k : String) :
    (amGet (stripSel sel) k).isSome = (amGet sel k).isSome := by
  rw [amGet_stripSel]
  cases amGet sel k <;> rfl

theorem stripSel_amErase (sel : Selected) (k : String) :
    stripSel (amErase sel k) = amErase (stripSel sel) k := by
  induction sel with
  | nil => rfl
  | cons p rest ih =>
    cases p with
    | mk a b =>
      by_cases hp : a = k
      · simp [amErase, stripSel, hp] at *
        exact ih
      · simp [amErase, stripSel, hp] at *
        exact ih

theorem stripSel_amInsert (sel : Selected) (k : String) (v : PackageMetadata) :
    stripSel (amInsert sel k v) = amInsert (stripSel sel) k (stripMeta v) := by
  show (k, stripMeta v) :: stripSel (amErase sel k) =
    (k, stripMeta v) :: amErase (stripSel sel) k
  rw [stripSel_amErase]

theorem stripMeta_id (m : PackageMetadata) : (stripMeta m).id = m.id := rfl

theorem maxByVersion_strip (c : PackageMetadata) (cs : List PackageMetadata) :
    maxByVersion (stripMeta c) (cs.map stripMeta) = stripMeta (maxByVersion c cs) := by
  induction cs generalizing c with
  | nil => rfl
  | cons m cs ih =>
    have h1 : maxByVersion (stripMeta c) ((m :: cs).map stripMeta) =
        maxByVersion (if (stripMeta m).id.version.data <
            (stripMeta c).id.version.data then stripMeta c else stripMeta m)
          (cs.map stripMeta) := by
      simp [maxByVersion]
    have h2 : maxByVersion c (m :: cs) =
        maxByVersion (if m.id.version.data < c.id.version.data then c else m) cs := by
      simp [maxByVersion]
    rw [stripMeta_id, stripMeta_id] at h1
    rw [h1, h2]
    by_cases hc : m.id.version.data < c.id.version.data
    · rw [if_pos hc, if_pos hc]
      exact ih c
    · rw [if_neg hc, if_neg hc]
      exact ih m

theorem stripDeps (U : UniverseMap) (fl ar : String) (fuel : Nat)
    (IH : ∀ name sel vis,
      resolvePackage (stripUniverse U) fl ar fuel name (stripSel sel) vis =
        stripRes (resolvePackage U fl ar fuel name sel vis))
    (ds : List Dependency) :
    ∀ sel vis,
      resolveDeps (resolvePackage (stripUniverse U) fl ar fuel)
          (ds.map stripDep) (stripSel sel) vis =
        stripRes (resolveDeps (resolvePackage U fl ar fuel) ds sel vis) := by
  induction ds with
  | nil => intro sel vis; rfl
  | cons d ds ih =>
    intro sel vis
    simp only [List.map_cons]
    have hname : (stripDep d).name = d.name := rfl
    by_cases hg : (amGet sel d.name).isSome = true
    · have hg' : (amGet (stripSel sel) d.name).isSome = true := by
        rw [isSome_amGet_stripSel]; exact hg
      have hL : resolveDeps (resolvePackage (stripUniverse U) fl ar fuel)
          (stripDep d :: ds.map stripDep) (stripSel sel) vis =
          resolveDeps (resolvePackage (stripUniverse U) fl ar fuel)
            (ds.map stripDep) (stripSel sel) vis := by
        simp only [resolveDeps, hname, if_pos hg']
      have hR : resolveDeps (resolvePackage U fl ar fuel) (d :: ds) sel vis =
          resolveDeps (resolvePackage U fl ar fuel) ds sel vis := by
        simp only [resolveDeps, if_pos hg]
      rw [hL, hR]
      exact ih sel vis
    · have hg' : ¬ (amGet (stripSel sel) d.name).isSome = true := by
        rw [isSome_amGet_stripSel]; exact hg
      rcases hf : resolvePackage U fl ar fuel d.name sel vis with e | p
      · have hf' : resolvePackage (stripUniverse U) fl ar fuel d.name
            (stripSel sel) vis = .error e := by
          rw [IH, hf]; rfl
        have hL : resolveDeps (resolvePackage (stripUniverse U) fl ar fuel)
            (stripDep d :: ds.map stripDep) (stripSel sel) vis = .error e := by
          simp only [resolveDeps, hname, if_neg hg', hf']
        have hR : resolveDeps (resolvePackage U fl ar fuel) (d :: ds) sel vis =
            .error e := by
          simp only [resolveDeps, if_neg hg, hf]
        rw [hL, hR]
        rfl
      · rcases p with ⟨s1, v1⟩
        have hf' : resolvePackage (stripUniverse U) fl ar fuel d.name
            (stripSel sel) vis = .ok (stripSel s1, v1) := by
          rw [IH, hf]; rfl
        have hL : resolveDeps (resolvePackage (stripUniverse U) fl ar fuel)
            (stripDep d :: ds.map stripDep) (stripSel sel) vis =
            resolveDeps (resolvePackage (stripUniverse U) fl ar fuel)
              (ds.map stripDep) (stripSel s1) v1 := by
          simp only [resolveDeps, hname, if_neg hg', hf']
        have hR : resolveDeps (resolvePackage U fl ar fuel) (d :: ds) sel vis =
            resolveDeps (resolvePackage U fl ar fuel) ds s1 v1 := by
          simp only [resolveDeps, if_neg hg, hf]
        rw [hL, hR]
        exact ih s1 v1

theorem stripPackage (U : UniverseMap) (fl ar : String) :
    ∀ fuel name sel vis,
      resolvePackage (stripUniverse U) fl ar fuel name (stripSel sel) vis =
        stripRes (resolvePackage U fl ar fuel name sel vis) := by
  intro fuel
  induction fuel with
  | zero => intro name sel vis; rfl
  | succ fuel ih =>
    intro name sel vis
    by_cases hmem : name ∈ vis
    · have hL : resolvePackage (stripUniverse U) fl ar (fuel + 1) name
          (stripSel sel) vis = .error (.circularDependency name) := by
        simp only [resolvePackage, if_pos hmem]
      have hR : resolvePackage U fl ar (fuel + 1) name sel vis =
          .error (.circularDependency name) := by
        simp only [resolvePackage, if_pos hmem]
      rw [hL, hR]
      rfl
    · rcases hU : amGet U (name, ar, fl) with _ | cands
      · have hU' : amGet (stripUniverse U) (name, ar, fl) = none := by
          rw [amGet_stripUniverse, hU]; rfl
        have hL : resolvePackage (stripUniverse U) fl ar (fuel + 1) name
            (stripSel sel) vis = .error (.packageNotFound name) := by
          simp only [resolvePackage, if_neg hmem, hU']
        have hR : resolvePackage U fl ar (fuel + 1) name sel vis =
            .error (.packageNotFound name) := by
          simp only [resolvePackage, if_neg hmem, hU]
        rw [hL, hR]
        rfl
      · rcases cands with _ | ⟨c, cs⟩
        · have hU' : amGet (stripUniverse U) (name, ar, fl) = some [] := by
            rw [amGet_stripUniverse, hU]; rfl
          have hL : resolvePackage (stripUniverse U) fl ar (fuel + 1) name
              (stripSel sel) vis = .error .panicEmptyCandidates := by
            simp only [resolvePackage, if_neg hmem, hU']
          have hR : resolvePackage U fl ar (fuel + 1) name sel vis =
              .error .panicEmptyCandidates := by
            simp only [resolvePackage, if_neg hmem, hU]
          rw [hL, hR]
          rfl
        · have hU' : amGet (stripUniverse U) (name, ar, fl) =
              some (stripMeta c :: cs.map stripMeta) := by
            rw [amGet_stripUniverse, hU]; rfl
          have hmax := maxByVersion_strip c cs
          have hflav : (maxByVersion (stripMeta c) (cs.map stripMeta)).id.flavour =
              (maxByVersion c cs).id.flavour := by
            rw [hmax]; rfl
          by_cases hfl : (maxByVersion c cs).id.flavour = fl
          · have hfl2 : (stripMeta (maxByVersion c cs)).id.flavour = fl := hfl
            have hdeps : (stripMeta (maxByVersion c cs)).depends =
                (maxByVersion c cs).depends.map stripDep := rfl
            have hL : resolvePackage (stripUniverse U) fl ar (fuel + 1) name
                (stripSel sel) vis =
                match resolveDeps (resolvePackage (stripUniverse U) fl ar fuel)
                    ((maxByVersion c cs).depends.map stripDep)
                    (amInsert (stripSel sel) name (stripMeta (maxByVersion c cs)))
                    (name :: vis) with
                | .error e => .error e
                | .ok (sel', vis') => .ok (sel', vis'.erase name) := by
              simp only [resolvePackage, if_neg hmem, hU', hmax, if_pos hfl2, hdeps]
            have hR : resolvePackage U fl ar (fuel + 1) name sel vis =
                match resolveDeps (resolvePackage U fl ar fuel)
                    (maxByVersion c cs).depends
                    (amInsert sel name (maxByVersion c cs)) (name :: vis) with
                | .error e => .error e
                | .ok (sel', vis') => .ok (sel', vis'.erase name) := by
              simp only [resolvePackage, if_neg hmem, hU, if_pos hfl]
            rw [hL, hR]
            rw [show amInsert (stripSel sel) name (stripMeta (maxByVersion c cs)) =
              stripSel (amInsert sel name (maxByVersion c cs)) from
              (stripSel_amInsert sel name (maxByVersion c cs)).symm]
            rw [stripDeps U fl ar fuel ih (maxByVersion c cs).depends
              (amInsert sel name (maxByVersion c cs)) (name :: vis)]
            rcases resolveDeps (resolvePackage U fl ar fuel)
                (maxByVersion c cs).depends
                (amInsert sel name (maxByVersion c cs)) (name :: vis) with e | p
            · rfl
            · rcases p with ⟨s2, v2⟩
              rfl
          · have hfl2 : ¬ (stripMeta (maxByVersion c cs)).id.flavour = fl := hfl
            have hL : resolvePackage (stripUniverse U) fl ar (fuel + 1) name
                (stripSel sel) vis =
                .error (.flavourMismatch (maxByVersion c cs).id.flavour fl) := by
              simp only [resolvePackage, if_neg hmem, hU', hmax, if_neg hfl2]
              rfl
            have hR : resolvePackage U fl ar (fuel + 1) name sel vis =
                .error (.flavourMismatch (maxByVersion c cs).id.flavour fl) := by
              simp only [resolvePackage, if_neg hmem, hU, if_neg hfl]
            rw [hL, hR]
            rfl

theorem stripRoots (U : UniverseMap) (fl ar : String) (fuel : Nat) :
    ∀ roots sel vis,
      resolveRoots (stripUniverse U) fl ar fuel roots (stripSel sel) vis =
        stripRes (resolveRoots U fl ar fuel roots sel vis) := by
  intro roots
  induction roots with
  | nil => intro sel vis; rfl
  | cons r rs ih =>
    intro sel vis
    have hf' := stripPackage U fl ar fuel r sel vis
    rcases hf : resolvePackage U fl ar fuel r sel vis with e | p
    · rw [hf] at hf'
      have hf2 : resolvePackage (stripUniverse U) fl ar fuel r (stripSel sel) vis =
          .error e := hf'
      have hL : resolveRoots (stripUniverse U) fl ar fuel (r :: rs)
          (stripSel sel) vis = .error e := by
        simp only [resolveRoots, hf2]
      have hR : resolveRoots U fl ar fuel (r :: rs) sel vis = .error e := by
        simp only [resolveRoots, hf]
      rw [hL, hR]
      rfl
    · rcases p with ⟨s1, v1⟩
      rw [hf] at hf'
      have hf2 : resolvePackage (stripUniverse U) fl ar fuel r (stripSel sel) vis =
          .ok (stripSel s1, v1) := hf'
      have hL : resolveRoots (stripUniverse U) fl ar fuel (r :: rs)
          (stripSel sel) vis =
          resolveRoots (stripUniverse U) fl ar fuel rs (stripSel s1) v1 := by
        simp only [resolveRoots, hf2]
      have hR : resolveRoots U fl ar fuel (r :: rs) sel vis =
          resolveRoots U fl ar fuel rs s1 v1 := by
        simp only [resolveRoots, hf]
      rw [hL, hR]
      exact ih s1 v1

theorem buildSolution_stripSel (sel : Selected) :
    buildSolution (stripSel sel) = buildSolution sel := by
  simp only [buildSolution, stripSel, List.map_map]
  rfl

theorem pkgNoVC (U : UniverseMap) (fl ar : String) :
    ∀ fuel name sel vis msg,
      resolvePackage U fl ar fuel name sel vis ≠ .error (.versionConstraint msg) := by
  intro fuel
  induction fuel with
  | zero => intro name sel vis msg h; simp [resolvePackage] at h
  | succ fuel ih =>
    intro name sel vis msg h
    by_cases hmem : name ∈ vis
    · rw [show resolvePackage U fl ar (fuel + 1) name sel vis =
        .error (.circularDependency name) by
          simp only [resolvePackage, if_pos hmem]] at h
      simp at h
    · rcases hU : amGet U (name, ar, fl) with _ | cands
      · rw [show resolvePackage U fl ar (fuel + 1) name sel vis =
          .error (.packageNotFound name) by
            simp only [resolvePackage, if_neg hmem, hU]] at h
        simp at h
      · rcases cands with _ | ⟨c, cs⟩
        · rw [show resolvePackage U fl ar (fuel + 1) name sel vis =
            .error .panicEmptyCandidates by
              simp only [resolvePackage, if_neg hmem, hU]] at h
          simp at h
        · by_cases hfl : (maxByVersion c cs).id.flavour = fl
          · rw [show resolvePackage U fl ar (fuel + 1) name sel vis =
              match resolveDeps (resolvePackage U fl ar fuel)
                  (maxByVersion c cs).depends
                  (amInsert sel name (maxByVersion c cs)) (name :: vis) with
              | .error e => .error e
              | .ok (sel', vis') => .ok (sel', vis'.erase name) by
                simp only [resolvePackage, if_neg hmem, hU, if_pos hfl]] at h
            rcases hD : resolveDeps (resolvePackage U fl ar fuel)
                (maxByVersion c cs).depends
                (amInsert sel name (maxByVersion c cs)) (name :: vis) with e | p
            · rw [hD] at h
              injection h with h1
              subst h1
              rcases resolveDeps_error_source (resolvePackage U fl ar fuel)
                  (maxByVersion c cs).depends _ _ _ hD with ⟨n, s, v, hcall⟩
              exact ih n s v msg hcall
            · rcases p with ⟨s2, v2⟩
              rw [hD] at h
              simp at h
          · rw [show resolvePackage U fl ar (fuel + 1) name sel vis =
              .error (.flavourMismatch (maxByVersion c cs).id.flavour fl) by
                simp only [resolvePackage, if_neg hmem, hU, if_neg hfl]] at h
            simp at h

theorem rootsNoVC (U : UniverseMap) (fl ar : String) (fuel : Nat) :
    ∀ roots sel vis msg,
      resolveRoots U fl ar fuel roots sel vis ≠ .error (.versionConstraint msg) := by
  intro roots
  induction roots with
  | nil => intro sel vis msg h; simp [resolveRoots] at h
  | cons r rs ih =>
    intro sel vis msg h
    rcases hf : resolvePackage U fl ar fuel r sel vis with e | p
    · rw [show resolveRoots U fl ar fuel (r :: rs) sel vis = .error e by
        simp only [resolveRoots, hf]] at h
      injection h with h1
      subst h1
      exact pkgNoVC U fl ar fuel r sel vis msg hf
    · rcases p with ⟨s1, v1⟩
      rw [show resolveRoots U fl ar fuel (r :: rs) sel vis =
          resolveRoots U fl ar fuel rs s1 v1 by
        simp only [resolveRoots, hf]] at h
      exact ih s1 v1 msg h

/-- C7: the resolver's outcome does not depend on the version predicates on
dependency edges — replacing every predicate by `Any` leaves the result
(success, selections, and errors alike) unchanged — and resolution never
fails with `VersionConstraint`. -/
theorem resolver_ignores_predicates (U : UniverseMap) (roots : List String)
    (fl ar : String) (fuel : Nat) :
    resolve (stripUniverse U) roots fl ar fuel = resolve U roots fl ar fuel ∧
    isVersionConstraintErr (resolve U roots fl ar fuel) = false := by
  constructor
  · have h := stripRoots U fl ar fuel roots [] []
    rcases hres : resolveRoots U fl ar fuel roots [] [] with e | p
    · rw [hres] at h
      have h2 : resolveRoots (stripUniverse U) fl ar fuel roots [] [] =
          .error e := h
      simp only [resolve, h2, hres]
    · rcases p with ⟨sel, vis⟩
      rw [hres] at h
      have h2 : resolveRoots (stripUniverse U) fl ar fuel roots [] [] =
          .ok (stripSel sel, vis) := h
      simp only [resolve, h2, hres, buildSolution_stripSel]
  · rcases hres : resolveRoots U fl ar fuel roots [] [] with e | p
    · have hr : resolve U roots fl ar fuel = .error e := by
        simp only [resolve, hres]
      rw [hr]
      cases e with
      | packageNotFound n => rfl
      | noSolution m => rfl
      | flavourMismatch a b => rfl
      | circularDependency n => rfl
      | versionConstraint m => exact absurd hres (rootsNoVC U fl ar fuel roots [] [] m)
      | io => rfl
      | sqlite => rfl
      | outOfFuel => rfl
      | panicEmptyCandidates => rfl
    · rcases p with ⟨sel, vis⟩
      have hr : resolve U roots fl ar fuel = .ok (buildSolution sel) := by
        simp only [resolve, hres]
      rw [hr]
      rfl

end Depres

/-! ## Repository lookup (`src/resolve.rs`) -/

namespace RepoResolve

/-- `RepoPackage` (src/resolve.rs:28-35): one row of a parsed repo DB. -/
structure RepoPackage where
  version : String
  arch : String
  filename : String
  sha256 : String
  depends : List String
deriving DecidableEq

/-- A parsed repository database: the TOML top-level map package-name → entry
(`RepoDatabase`, src/resolve.rs:37-41). -/
abbrev RepoDb := List (String × RepoPackage)

/-- The on-disk cache of per-repo databases: `none` for a repo when
`var/cache/koushou/repos/<repo>.db` does not exist. -/
structure RepoCaches where
  core : Option RepoDb
  main : Option RepoDb
  extra : Option RepoDb
deriving DecidableEq

inductive ResolveError where
  | notFound (name : String)
  | io
  | toml
  | http
  | sha256Mismatch (filename expected actual : String)
deriving DecidableEq

/-- `ResolvedPackage` (src/resolve.rs:43-52). -/
structure ResolvedPackage where
  name : String
  version : String
  arch : String
  filename : String
  url : String
  sha256 : String
  depends : List String
deriving DecidableEq

/-- Download-URL construction of `resolve_package` (src/resolve.rs:100-103). -/
def mkUrl (flavour repo arch filename : String) : String :=
  "https://seiryolinux.github.io/repo/" ++ flavour ++ "/" ++ repo ++ "/" ++ arch
    ++ "/" ++ filename

/-- One iteration of the repo loop of `resolve_package` (src/resolve.rs:89-114):
skip when the cached DB file is absent; return the entry under `name` when its
arch matches, otherwise fall through to the next repo. -/
def tryRepo (name flavour arch repo : String) (db? : Option RepoDb) :
    Option ResolvedPackage :=
  match db? with
  | none => none
  | some db =>
    match amGet db name with
    | none => none
    | some pkg =>
      if pkg.arch = arch then
        some { name := name, version := pkg.version, arch := pkg.arch
             , filename := pkg.filename
             , url := mkUrl flavour repo arch pkg.filename
             , sha256 := pkg.sha256, depends := pkg.depends }
      else none

/-- `resolve_package` (src/resolve.rs:83-118): first match in the fixed repo
order `core`, `main`, `extra` wins; `NotFound` when no repo matches. -/
def resolvePackageRepo (name flavour arch : String) (c : RepoCaches) :
    Except ResolveError ResolvedPackage :=
  match tryRepo name flavour arch "core" c.core with
  | some r => .ok r
  | none =>
    match tryRepo name flavour arch "main" c.main with
    | some r => .ok r
    | none =>
      match tryRepo name flavour arch "extra" c.extra with
      | some r => .ok r
      | none => .error (.notFound name)

/-- Fixture: `foo` at version 1.0 as advertised by the `core` repo. -/
def cxCorePkg : RepoPackage :=
  { version := "1.0", arch := "x86_64", filename := "foo-1.0-x86_64.kpkg"
  , sha256 := "h1", depends := [] }

/-- Fixture: `foo` at version 2.0 as advertised by the `main` repo. -/
def cxMainPkg : RepoPackage :=
  { version := "2.0", arch := "x86_64", filename := "foo-2.0-x86_64.kpkg"
  , sha256 := "h2", depends := [] }

/-- Fixture caches: `foo@1.0` in core, `foo@2.0` in main. -/
def cxCaches : RepoCaches :=
  { core := some [("foo", cxCorePkg)]
  , main := some [("foo", cxMainPkg)]
  , extra := none }

/-- Counterexample to C6: with `foo` at 1.0 in `core` and at the
lexicographically higher 2.0 in `main`, lookup returns the core entry at
1.0 — repository precedence overrides version entirely, so the resolver does
not select the highest version among the candidates for the name. -/
theorem repo_precedence_beats_version :
    (match resolvePackageRepo "foo" "glibc" "x86_64" cxCaches with
      | .ok r => r.version
      | .error _ => "") = "1.0" ∧
    decide (("1.0" : String).data < ("2.0" : String).data) = true :=
  ⟨rfl, rfl⟩

/-- C6 (amended): the universe resolver picks, among the candidates stored
under `(name, arch, flavour)`, an entry whose version is lexicographically
maximal (ties go to the last such entry, not to any repository precedence);
the per-repo lookup of `resolve.rs` instead returns the first repo in the
fixed order `core`, `main`, `extra` containing the name with matching arch,
regardless of version. -/
theorem version_choice_amended (c : Depres.PackageMetadata)
    (cs : List Depres.PackageMetadata) (name fl ar : String)
    (caches : RepoCaches) (db : RepoDb) (pkg : RepoPackage)
    (hcore : caches.core = some db) (hget : amGet db name = some pkg)
    (harch : pkg.arch = ar) :
    (Depres.maxByVersion c cs ∈ c :: cs ∧
      ∀ x ∈ c :: cs,
        x.id.version.data ≤ (Depres.maxByVersion c cs).id.version.data) ∧
    resolvePackageRepo name fl ar caches =
      .ok { name := name, version := pkg.version, arch := pkg.arch
          , filename := pkg.filename, url := mkUrl fl "core" ar pkg.filename
          , sha256 := pkg.sha256, depends := pkg.depends } := by
  refine ⟨⟨Depres.maxByVersion_mem c cs, Depres.maxByVersion_ge c cs⟩, ?_⟩
  simp only [resolvePackageRepo, tryRepo, hcore, hget, if_pos harch]

/-- Witness for the amended C6 at concrete candidates and caches. -/
theorem version_choice_amended_witness :
    (Depres.maxByVersion Depres.closMetaA [Depres.closMetaB] ∈
        Depres.closMetaA :: [Depres.closMetaB] ∧
      ∀ x ∈ Depres.closMetaA :: [Depres.closMetaB],
        x.id.version.data ≤
          (Depres.maxByVersion Depres.closMetaA [Depres.closMetaB]).id.version.data) ∧
    resolvePackageRepo "foo" "glibc" "x86_64" cxCaches =
      .ok { name := "foo", version := cxCorePkg.version, arch := cxCorePkg.arch
          , filename := cxCorePkg.filename
          , url := mkUrl "glibc" "core" "x86_64" cxCorePkg.filename
          , sha256 := cxCorePkg.sha256, depends := cxCorePkg.depends } :=
  version_choice_amended Depres.closMetaA [Depres.closMetaB] "foo" "glibc"
    "x86_64" cxCaches [("foo", cxCorePkg)] cxCorePkg (by rfl) (by rfl) (by rfl)

end RepoResolve

/-! ## Install-by-name orchestration (`src/install.rs`) -/

namespace Orchestrator

/-- Per-package data produced by `resolve::resolve_transaction` and consumed
by the install loop: the fields of `resolve::ResolvedPackage` read in
src/install.rs:67-82. -/
structure ResolvedPkg where
  filename : String
  url : String
  sha256 : String
deriving DecidableEq

/-- Bytes of a file, abstractly. -/
abbrev Bytes := List Nat

/-- Orchestrator state: the package cache `var/cache/koushou/pkgs`
(filename → file bytes) and the `.kpkg` files handed to
`install_local_package`, in order. -/
structure OrchState where
  cache : List (String × Bytes)
  handedToEngine : List String
deriving DecidableEq

inductive OrchError where
  | sha256Mismatch (filename expected actual : String)
  | invalidRoot
  | other
deriving DecidableEq

/-- Modelled from the spec: `resolve::download_package` is called at
src/install.rs:71 but its definition is not under src/; per §4.5,
`download(url, dest_path)` "streams the HTTP response body to `dest_path`".
`net` gives the body served for a URL; the destination file in the cache
receives exactly those bytes. -/
def downloadPackage (net : String → Bytes) (st : OrchState)
    (url filename : String) : OrchState :=
  { st with cache := amInsert st.cache filename (net url) }

/-- One iteration of the install loop of `install_package_by_name`
(src/install.rs:67-83): a missing cache entry is downloaded and
digest-checked (`compute_sha256` embedded as `hash` over the file's bytes);
an existing cache entry is handed straight to the install engine — the
digest check sits inside the `!kpkg_path.exists()` branch.
`install_local_package` is abstracted to recording the hand-off. -/
def installStep (hash : Bytes → String) (net : String → Bytes)
    (st : OrchState) (pkg : ResolvedPkg) : OrchState × Option OrchError :=
  match amGet st.cache pkg.filename with
  | some _ =>
    ({ st with handedToEngine := st.handedToEngine ++ [pkg.filename] }, none)
  | none =>
    let st1 := downloadPackage net st pkg.url pkg.filename
    let actual := hash (net pkg.url)
    if actual = pkg.sha256 then
      ({ st1 with handedToEngine := st1.handedToEngine ++ [pkg.filename] }, none)
    else
      (st1, some (.sha256Mismatch pkg.filename pkg.sha256 actual))

/-- The install loop over all resolved packages, stopping at the first error
exactly as `?`-propagation does in src/install.rs:67-83. -/
def installPkgs (hash : Bytes → String) (net : String → Bytes)
    (st : OrchState) : List ResolvedPkg → OrchState × Option OrchError
  | [] => (st, none)
  | pkg :: rest =>
    match installStep hash net st pkg with
    | (st', none) => installPkgs hash net st' rest
    | (st', some e) => (st', some e)

/-- Fixture hash: bytes `[1, 2, 3]` digest to `CORRUPT`; anything else
digests to `GOODHASH`. -/
def cxHash : Bytes → String :=
  fun b => if b = [1, 2, 3] then "CORRUPT" else "GOODHASH"

/-- Fixture network: every URL serves the empty body. -/
def cxNet : String → Bytes := fun _ => []

/-- Fixture network serving the corrupt body `[1, 2, 3]` for every URL. -/
def cxNetBad : String → Bytes := fun _ => [1, 2, 3]

/-- Fixture resolved package advertising digest `GOODHASH`. -/
def cxPkg : ResolvedPkg :=
  { filename := "bash-5.2-x86_64.kpkg", url := "u", sha256 := "GOODHASH" }

/-- Fixture state whose cache already holds a `bash-5.2-x86_64.kpkg` whose
bytes `[1, 2, 3]` hash to `CORRUPT`, not the advertised `GOODHASH`. -/
def cxCacheState : OrchState :=
  { cache := [("bash-5.2-x86_64.kpkg", [1, 2, 3])], handedToEngine := [] }

/-- Fixture state with an empty cache. -/
def cxEmptyState : OrchState := { cache := [], handedToEngine := [] }

/-- Counterexample to C1: a `.kpkg` already present in the package cache is
reused without any digest verification — here the cached bytes hash to
`CORRUPT` while the repository advertises `GOODHASH`, yet the install loop
hands the file to the install engine and succeeds. -/
theorem cached_kpkg_not_verified :
    installPkgs cxHash cxNet cxCacheState [cxPkg] =
      ({ cache := [("bash-5.2-x86_64.kpkg", [1, 2, 3])]
       , handedToEngine := ["bash-5.2-x86_64.kpkg"] }, none) ∧
    decide (cxHash [1, 2, 3] = cxPkg.sha256) = false :=
  ⟨rfl, rfl⟩

/-- C1 (amended): a freshly downloaded `.kpkg` is digest-verified before
being handed to the install engine — a mismatch aborts the loop with
`Sha256Mismatch` and nothing is handed over — but a `.kpkg` already present
in the cache is reused without digest verification. -/
theorem install_digest_gating (hash : Bytes → String) (net : String → Bytes)
    (stA stB : OrchState) (pkgA pkgB : ResolvedPkg) (rest : List ResolvedPkg)
    (b : Bytes)
    (hA : amGet stA.cache pkgA.filename = none)
    (hAbad : ¬ hash (net pkgA.url) = pkgA.sha256)
    (hB : amGet stB.cache pkgB.filename = some b) :
    installPkgs hash net stA (pkgA :: rest) =
      (downloadPackage net stA pkgA.url pkgA.filename,
       some (.sha256Mismatch pkgA.filename pkgA.sha256 (hash (net pkgA.url)))) ∧
    (downloadPackage net stA pkgA.url pkgA.filename).handedToEngine =
      stA.handedToEngine ∧
    installStep hash net stB pkgB =
      ({ stB with handedToEngine := stB.handedToEngine ++ [pkgB.filename] },
       none) := by
  have hstepA : installStep hash net stA pkgA =
      (downloadPackage net stA pkgA.url pkgA.filename,
       some (.sha256Mismatch pkgA.filename pkgA.sha256 (hash (net pkgA.url)))) := by
    simp only [installStep, hA, if_neg hAbad]
  refine ⟨?_, rfl, ?_⟩
  · simp only [installPkgs, hstepA]
  · simp only [installStep, hB]

/-- Witness for the amended C1: the empty-cache state mismatches and aborts;
the cached state is handed over unverified. -/
theorem install_digest_gating_witness :
    installPkgs cxHash cxNetBad cxEmptyState [cxPkg] =
      (downloadPackage cxNetBad cxEmptyState cxPkg.url cxPkg.filename,
       some (.sha256Mismatch cxPkg.filename cxPkg.sha256
         (cxHash (cxNetBad cxPkg.url)))) ∧
    (downloadPackage cxNetBad cxEmptyState cxPkg.url cxPkg.filename).handedToEngine =
      cxEmptyState.handedToEngine ∧
    installStep cxHash cxNetBad cxCacheState cxPkg =
      ({ cxCacheState with
          handedToEngine := cxCacheState.handedToEngine ++ [cxPkg.filename] },
       none) :=
  install_digest_gating cxHash cxNetBad cxEmptyState cxCacheState cxPkg cxPkg
    [] [1, 2, 3] (by rfl) (by decide) (by rfl)

end Orchestrator

/-! ## Repository sync (`src/sync.rs`) -/

namespace Sync

/-- `SyncError` (src/sync.rs:10-24). -/
inductive SyncError where
  | http
  | io
  | toml
  | missingFlavour
  | unsupportedArch (arch : String)
  | other (msg : String)
deriving DecidableEq

/-- Outcome of `reqwest::get`: a transport-level failure (network/TLS), or a
response carrying an HTTP status code and body bytes — non-2xx statuses are
not transport errors in reqwest. -/
inductive HttpResult where
  | transportError
  | response (status : Nat) (body : List Nat)
deriving DecidableEq

/-- `reqwest::StatusCode::is_success`: the status is in 200..=299. -/
def statusIsSuccess (s : Nat) : Bool := decide (200 ≤ s ∧ s < 300)

/-- The repo cache directory: `<repo>.db.zst` → raw bytes and `<repo>.db` →
decompressed TOML text. -/
structure RepoCacheFs where
  zst : List (String × List Nat)
  db : List (String × String)
deriving DecidableEq

/-- `sync_repo` (src/sync.rs:75-110): a transport error propagates (`?` on
`reqwest::get`); any non-success HTTP status logs a warning and skips the
repo, returning Ok with nothing written; otherwise the raw bytes are cached,
zstd-decompressed (`decode`, `none` embedding an io failure) and validated
as TOML (`parse`, `none` embedding invalid TOML), and the decompressed text
is cached alongside. -/
def syncRepo (decode : List Nat → Option String)
    (parse : String → Option (List (String × RepoResolve.RepoPackage)))
    (resp : HttpResult) (repoName : String) (fs : RepoCacheFs) :
    Except SyncError RepoCacheFs :=
  match resp with
  | .transportError => .error .http
  | .response status body =>
    if statusIsSuccess status = false then .ok fs
    else
      let fs1 : RepoCacheFs :=
        { fs with zst := amInsert fs.zst (repoName ++ ".db.zst") body }
      match decode body with
      | none => .error .io
      | some content =>
        match parse content with
        | none => .error (.other ("Invalid repo DB " ++ repoName))
        | some _ =>
          .ok { fs1 with db := amInsert fs1.db (repoName ++ ".db") content }

/-- `sync_repos` (src/sync.rs:58-73): read the flavour file, detect the arch
(`x86_64`/`aarch64`, otherwise `UnsupportedArch`), then sync `core` and
`main` in order, propagating errors. -/
def syncRepos (decode : List Nat → Option String)
    (parse : String → Option (List (String × RepoResolve.RepoPackage)))
    (flavour? : Option String) (archName : String)
    (respFor : String → HttpResult) (fs : RepoCacheFs) :
    Except SyncError RepoCacheFs :=
  match flavour? with
  | none => .error .missingFlavour
  | some _ =>
    if archName = "x86_64" ∨ archName = "aarch64" then
      match syncRepo decode parse (respFor "core") "core" fs with
      | .error e => .error e
      | .ok fs1 =>
        match syncRepo decode parse (respFor "main") "main" fs1 with
        | .error e => .error e
        | .ok fs2 => .ok fs2
    else .error (.unsupportedArch archName)

/-- Counterexample to C8: an HTTP 500 response — a 5xx, not a 4xx — is also
non-fatal: `sync_repo` skips the repo and returns Ok, because the code tests
`!response.status().is_success()`, which holds for every non-2xx status. -/
theorem http_500_skipped :
    syncRepo (fun _ => none) (fun _ => none) (.response 500 []) "core"
      { zst := [], db := [] } = .ok { zst := [], db := [] } := rfl

/-- C8 (amended): during repository sync, any per-repo HTTP response whose
status is outside 2xx — 404 and 5xx alike — is non-fatal: the repo is
skipped with a warning, nothing is written for it, and `sync_repos` still
succeeds overall; only transport-level HTTP failures propagate and fail the
sync. -/
theorem sync_skip_amended (decode : List Nat → Option String)
    (parse : String → Option (List (String × RepoResolve.RepoPackage)))
    (fs : RepoCacheFs) (fl arch : String) (sc sm : Nat) (bc bm : List Nat)
    (respFor : String → HttpResult)
    (hc : statusIsSuccess sc = false) (hm : statusIsSuccess sm = false)
    (harch : arch = "x86_64")
    (hrc : respFor "core" = .response sc bc)
    (hrm : respFor "main" = .response sm bm) :
    syncRepo decode parse (.response sc bc) "core" fs = .ok fs ∧
    syncRepo decode parse .transportError "core" fs = .error .http ∧
    syncRepos decode parse (some fl) arch respFor fs = .ok fs := by
  have h1 : ∀ repo, syncRepo decode parse (.response sc bc) repo fs = .ok fs := by
    intro repo
    simp [syncRepo, hc]
  have h2 : syncRepo decode parse (.response sm bm) "main" fs = .ok fs := by
    simp [syncRepo, hm]
  refine ⟨h1 "core", rfl, ?_⟩
  have harch2 : arch = "x86_64" ∨ arch = "aarch64" := Or.inl harch
  simp only [syncRepos, if_pos harch2, hrc, hrm, h1 "core", h2]

/-- Witness for the amended C8: both repos answer 404 and the sync succeeds. -/
theorem sync_skip_amended_witness :
    syncRepo (fun _ => none) (fun _ => none) (.response 404 []) "core"
      { zst := [], db := [] } = .ok { zst := [], db := [] } ∧
    syncRepo (fun _ => none) (fun _ => none) .transportError "core"
      { zst := [], db := [] } = .error .http ∧
    syncRepos (fun _ => none) (fun _ => none) (some "glibc") "x86_64"
      (fun _ => .response 404 []) { zst := [], db := [] } =
      .ok { zst := [], db := [] } :=
  sync_skip_amended (fun _ => none) (fun _ => none) { zst := [], db := [] }
    "glibc" "x86_64" 404 404 [] [] (fun _ => .response 404 [])
    (by decide) (by decide) (by rfl) (by rfl) (by rfl)

end Sync

/-! ## Installed-state database and removal (`src/pkgdb.rs`, `src/removal.rs`) -/

namespace Removal

/-- `InstalledPackage` (src/pkgdb.rs:10-18). -/
structure InstalledPackage where
  name : String
  version : String
  arch : String
  flavour : String
  depends : List String
  files : List String
deriving DecidableEq

/-- The `packages` map of `PackageDatabase` (src/pkgdb.rs:20-23). -/
abbrev PackageDatabase := List (String × InstalledPackage)

/-- A filesystem node: a regular file with contents, or a directory. -/
inductive FsNode where
  | file (content : String)
  | dir
deriving DecidableEq

inductive RemovalError where
  | notInstalled (name : String)
  | io
  | pkgDb
deriving DecidableEq

/-- State visible to `remove_package`: the filesystem under the root
(root-relative path → node) and the on-disk `var/lib/koushou/db.json`
(`none` when the file does not exist). -/
structure RemState where
  fs : List (String × FsNode)
  dbFile : Option PackageDatabase
deriving DecidableEq

/-- The unlink loop of `remove_package` (src/removal.rs:28-33), applied to
the already-reversed path list: a path that does not exist is skipped
(`abs_path.exists()`); `std::fs::remove_file` on a directory fails with an
io error (EISDIR) and `?` stops the loop; a regular file is unlinked. -/
def unlinkAll : List (String × FsNode) → List String →
    List (String × FsNode) × Option RemovalError
  | fs, [] => (fs, none)
  | fs, p :: ps =>
    match amGet fs p with
    | none => unlinkAll fs ps
    | some .dir => (fs, some .io)
    | some (.file _) => unlinkAll (amErase fs p) ps

/-- `remove_package` (src/removal.rs:17-39): fail `NotInstalled` when the DB
file is absent or the package is not recorded; otherwise remove the entry
from the in-memory DB, unlink the package's `files` in reverse order, and
only then save the DB.  The result is paired with the final state. -/
def removePackage (st : RemState) (name : String) :
    Option RemovalError × RemState :=
  match st.dbFile with
  | none => (some (.notInstalled name), st)
  | some db =>
    match amGet db name with
    | none => (some (.notInstalled name), st)
    | some pkg =>
      match unlinkAll st.fs pkg.files.reverse with
      | (fs', some e) => (some e, { st with fs := fs' })
      | (fs', none) => (none, { fs := fs', dbFile := some (amErase db name) })

/-- Effect of a successful unlink loop: untouched paths keep their nodes,
directories survive, absent paths stay absent, and every listed path that
held a regular file is gone. -/
theorem unlinkAll_ok (ps : List String) :
    ∀ fs fs', unlinkAll fs ps = (fs', none) →
      (∀ p, p ∉ ps → amGet fs' p = amGet fs p) ∧
      (∀ p, amGet fs p = some .dir → amGet fs' p = amGet fs p) ∧
      (∀ p, amGet fs p = none → amGet fs' p = none) ∧
      (∀ p c, p ∈ ps → amGet fs p = some (.file c) → amGet fs' p = none) := by
  induction ps with
  | nil =>
    intro fs fs' h
    injection h with h1 h2
    subst h1
    exact ⟨fun p _ => rfl, fun p _ => rfl, fun p h => h, fun p c hp _ => absurd hp (List.not_mem_nil p)⟩
  | cons p0 ps ih =>
    intro fs fs' h
    rcases hg : amGet fs p0 with _ | node
    · rw [show unlinkAll fs (p0 :: ps) = unlinkAll fs ps by
        simp only [unlinkAll, hg]] at h
      rcases ih fs fs' h with ⟨ha, hb, hc, hd⟩
      refine ⟨?_, hb, hc, ?_⟩
      · intro p hp
        exact ha p (fun hin => hp (List.mem_cons_of_mem _ hin))
      · intro p c hp hfile
        rcases List.mem_cons.mp hp with hp | hp
        · rw [hp] at hfile
          rw [hfile] at hg
          cases hg
        · exact hd p c hp hfile
    · cases node with
      | dir =>
        rw [show unlinkAll fs (p0 :: ps) = (fs, some .io) by
          simp only [unlinkAll, hg]] at h
        injection h with h1 h2
        cases h2
      | file c0 =>
        rw [show unlinkAll fs (p0 :: ps) = unlinkAll (amErase fs p0) ps by
          simp only [unlinkAll, hg]] at h
        rcases ih (amErase fs p0) fs' h with ⟨ha, hb, hc, hd⟩
        have herased : amGet (amErase fs p0) p0 = none := amGet_amErase_self fs p0
        refine ⟨?_, ?_, ?_, ?_⟩
        · intro p hp
          have hne : p0 ≠ p := fun he => hp (he ▸ List.mem_cons_self _ _)
          rw [ha p (fun hin => hp (List.mem_cons_of_mem _ hin))]
          exact amGet_amErase_ne fs p0 p hne
        · intro p hdir
          have hne : p0 ≠ p := by
            intro he
            rw [← he, hg] at hdir
            cases hdir
          have h1 : amGet (amErase fs p0) p = amGet fs p :=
            amGet_amErase_ne fs p0 p hne
          rw [hb p (by rw [h1]; exact hdir), h1]
        · intro p hnone
          have hne : p0 ≠ p := by
            intro he
            rw [← he, hg] at hnone
            cases hnone
          exact hc p (by rw [amGet_amErase_ne fs p0 p hne]; exact hnone)
        · intro p c hp hfile
          by_cases hpe : p0 = p
          · exact hc p (by rw [← hpe]; exact herased)
          · rcases List.mem_cons.mp hp with hp' | hp'
            · exact absurd hp'.symm hpe
            · exact hd p c hp' (by rw [amGet_amErase_ne fs p0 p hpe]; exact hfile)

/-- C9: `remove_package` fails with `NotInstalled` when the installed
database file does not exist or has no entry for the name; otherwise it
unlinks, iterating the package's `files` list in reverse, each listed path
that exists, tolerates listed paths that no longer exist, never deletes a
directory, and saves the database with that package's entry removed. -/
theorem remove_package_behaviour
    (stA : RemState) (nameA : String)
    (stB : RemState) (dbB : PackageDatabase) (nameB : String)
    (stC : RemState) (dbC : PackageDatabase) (nameC : String)
    (pkgC : InstalledPackage) (fsC : List (String × FsNode))
    (hA : stA.dbFile = none)
    (hB1 : stB.dbFile = some dbB) (hB2 : amGet dbB nameB = none)
    (hC1 : stC.dbFile = some dbC) (hC2 : amGet dbC nameC = some pkgC)
    (hC3 : unlinkAll stC.fs pkgC.files.reverse = (fsC, none)) :
    removePackage stA nameA = (some (.notInstalled nameA), stA) ∧
    removePackage stB nameB = (some (.notInstalled nameB), stB) ∧
    removePackage stC nameC =
      (none, { fs := fsC, dbFile := some (amErase dbC nameC) }) ∧
    (∀ p, amGet stC.fs p = some .dir → amGet fsC p = some .dir) ∧
    (∀ p, p ∉ pkgC.files → amGet fsC p = amGet stC.fs p) ∧
    (∀ p c, p ∈ pkgC.files → amGet stC.fs p = some (.file c) →
      amGet fsC p = none) := by
  rcases unlinkAll_ok pkgC.files.reverse stC.fs fsC hC3 with ⟨ha, hb, hc, hd⟩
  refine ⟨?_, ?_, ?_, ?_, ?_, ?_⟩
  · simp only [removePackage, hA]
  · simp only [removePackage, hB1, hB2]
  · simp only [removePackage, hC1, hC2, hC3]
  · intro p hdir
    rw [hb p hdir]
    exact hdir
  · intro p hp
    exact ha p (fun hin => hp (List.mem_reverse.mp hin))
  · intro p c hp hfile
    exact hd p c (List.mem_reverse.mpr hp) hfile

/-- Fixture: installed package `p` owning `gone` (already absent) and
`usr/bin/foo`. -/
def remPkg : InstalledPackage :=
  { name := "p", version := "1.0", arch := "x86_64", flavour := "glibc"
  , depends := [], files := ["gone", "usr/bin/foo"] }

/-- Fixture removal state: `usr/bin/foo` is a regular file, `usr` a
directory, `gone` absent; the DB records `p`. -/
def remState : RemState :=
  { fs := [("usr/bin/foo", .file "x"), ("usr", .dir)]
  , dbFile := some [("p", remPkg)] }

/-- Witness for C9 at concrete states for each of the three behaviours. -/
theorem remove_package_behaviour_witness :
    removePackage { fs := [], dbFile := none } "q" =
      (some (.notInstalled "q"), { fs := [], dbFile := none }) ∧
    removePackage { fs := [], dbFile := some [("p", remPkg)] } "q" =
      (some (.notInstalled "q"), { fs := [], dbFile := some [("p", remPkg)] }) ∧
    removePackage remState "p" =
      (none, { fs := [("usr", FsNode.dir)]
             , dbFile := some (amErase [("p", remPkg)] "p") }) ∧
    (∀ p, amGet remState.fs p = some .dir →
      amGet [("usr", FsNode.dir)] p = some .dir) ∧
    (∀ p, p ∉ remPkg.files →
      amGet [("usr", FsNode.dir)] p = amGet remState.fs p) ∧
    (∀ p c, p ∈ remPkg.files → amGet remState.fs p = some (.file c) →
      amGet [("usr", FsNode.dir)] p = none) :=
  remove_package_behaviour
    { fs := [], dbFile := none } "q"
    { fs := [], dbFile := some [("p", remPkg)] } [("p", remPkg)] "q"
    remState [("p", remPkg)] "p" remPkg [("usr", FsNode.dir)]
    (by rfl) (by rfl) (by decide) (by rfl) (by rfl) (by rfl)

/-- C10: whenever `remove_package` returns an error — in particular an io
error raised while unlinking one of the owned files — the database has not
been saved: the on-disk `db.json` is exactly the one loaded, so the package
remains recorded as installed, even though files visited earlier in the
reversed iteration may already have been unlinked. -/
theorem remove_error_preserves_db (st st' : RemState) (name : String)
    (e : RemovalError) (h : removePackage st name = (some e, st')) :
    st'.dbFile = st.dbFile := by
  rcases hdb : st.dbFile with _ | db
  · rw [show removePackage st name = (some (.notInstalled name), st) by
      simp only [removePackage, hdb]] at h
    injection h with h1 h2
    rw [← h2]
    exact hdb
  · rcases hget : amGet db name with _ | pkg
    · rw [show removePackage st name = (some (.notInstalled name), st) by
        simp only [removePackage, hdb, hget]] at h
      injection h with h1 h2
      rw [← h2]
      exact hdb
    · rcases hul : unlinkAll st.fs pkg.files.reverse with ⟨fsE, oe⟩
      cases oe with
      | none =>
        rw [show removePackage st name =
            (none, { fs := fsE, dbFile := some (amErase db name) }) by
          simp only [removePackage, hdb, hget, hul]] at h
        injection h with h1 h2
        cases h1
      | some e0 =>
        rw [show removePackage st name = (some e0, { st with fs := fsE }) by
          simp only [removePackage, hdb, hget, hul]] at h
        injection h with h1 h2
        rw [← h2]
        exact hdb

/-- Fixture: installed package `d-first` owning `d` (a directory) and `x`. -/
def remPkgBad : InstalledPackage :=
  { name := "p", version := "1.0", arch := "x86_64", flavour := "glibc"
  , depends := [], files := ["d", "x"] }

/-- Fixture state for the failing removal: `x` a regular file, `d` a
directory; reversed iteration unlinks `x` first, then fails on `d`. -/
def remStateBad : RemState :=
  { fs := [("x", .file "a"), ("d", .dir)]
  , dbFile := some [("p", remPkgBad)] }

/-- Witness for C10: the failing removal has already unlinked `x` but the
db file still records `p`. -/
theorem remove_error_preserves_db_witness :
    ({ fs := [("d", FsNode.dir)]
     , dbFile := some [("p", remPkgBad)] } : RemState).dbFile =
      remStateBad.dbFile :=
  remove_error_preserves_db remStateBad
    { fs := [("d", FsNode.dir)], dbFile := some [("p", remPkgBad)] }
    "p" .io (by decide)

end Removal

/-! ## Package builder and install engine (`src/pkgutil.rs`, `src/install.rs`)

Paths are embedded as component lists; file contents as strings; tar
archives as entry lists (tar round-trips entries losslessly, and gzip/zstd
compression is lossless, so compression is the identity at this level). -/

namespace BuildInstall

/-- A path relative to a tree root, as components. -/
abbrev Path := List String

/-- A filesystem entry as seen by the builder's walk. -/
inductive FsEntry where
  | file (content : String) (mode : Nat)
  | dir
  | symlink (target : String)
deriving DecidableEq

/-- A directory tree: the walk enumeration, path → entry. -/
abbrev FileTree := List (Path × FsEntry)

/-- A tar record as produced by `build` (src/pkgutil.rs:80-106). -/
inductive TarEntry where
  | file (path : Path) (content : String) (mode : Nat)
  | dir (path : Path) (mode : Nat)
  | symlink (path : Path) (mode : Nat) (target : String)
deriving DecidableEq

/-- The path and filesystem entry a tar record unpacks to. -/
def tarToPair : TarEntry → Path × FsEntry
  | .file p c m => (p, .file c m)
  | .dir p _ => (p, .dir)
  | .symlink p _ tgt => (p, .symlink tgt)

/-- `Package` (src/package.rs:6-15). -/
structure Package where
  name : String
  version : String
  arch : String
  flavor : String
  depends : List String
  homepage : Option String
  license : Option String
deriving DecidableEq

/-- A source tree for `build`: the `package.kdl` file (`none` when absent,
`some none` when present but unparsable, `some (some pkg)` when it parses to
`pkg` — parsing is deterministic, so carrying the parse result is faithful)
and the `files/` directory walk (`none` when the directory is missing). -/
structure SourceTree where
  packageKdl : Option (Option Package)
  filesDir : Option FileTree
deriving DecidableEq

/-- The `.kpkg` artifact: gzip-tar of exactly `package.kdl` and
`files.tar.zst` (src/pkgutil.rs:113-123); the manifest member is carried as
its parse result, identical at build and install time. -/
structure Kpkg where
  packageKdl : Option Package
  filesTar : List TarEntry
deriving DecidableEq

inductive PkgUtilError where
  | io
  | packageParse
  | alreadyExists (name : String)
  | missingMetadata (dir : String)
  | missingFilesDir (dir : String)
deriving DecidableEq

/-- The walk loop of `build` (src/pkgutil.rs:74-107): the empty relative
path (the `files/` root itself) is skipped; regular files keep size, mode
and content; directories get mode `0o755`; symlinks mode `0o777` and their
target. -/
def buildFilesTar (t : FileTree) : List TarEntry :=
  t.filterMap fun pe =>
    if pe.1 = [] then none
    else
      match pe.2 with
      | .file c m => some (.file pe.1 c m)
      | .dir => some (.dir pe.1 493)
      | .symlink tgt => some (.symlink pe.1 511 tgt)

/-- `build` (src/pkgutil.rs:55-129): require `package.kdl`
(`MissingMetadata` otherwise), parse it (propagating the failure), require
`files/` (`MissingFilesDir` otherwise), then emit the `.kpkg` holding the
manifest and the files tar. -/
def build (dir : String) (S : SourceTree) : Except PkgUtilError Kpkg :=
  match S.packageKdl with
  | none => .error (.missingMetadata dir)
  | some none => .error .packageParse
  | some (some pkg) =>
    match S.filesDir with
    | none => .error (.missingFilesDir dir)
    | some t => .ok { packageKdl := some pkg, filesTar := buildFilesTar t }

inductive InstallError where
  | io
  | packageParse
  | missingFilesTar
  | tempDir
  | invalidRoot
  | pkgDb
deriving DecidableEq

/-- tar-rs `Archive::unpack` into a fresh directory: apply the entries in
order, later entries replacing earlier ones at the same path. -/
def unpackTree (entries : List TarEntry) : FileTree :=
  entries.foldl (fun fs e => amInsert fs (tarToPair e).1 (tarToPair e).2) []

/-- The walk of `staging/` recording regular-file paths as root-relative
strings (src/install.rs:120-126). -/
def stagingFiles (fs : FileTree) : List String :=
  fs.filterMap fun pe =>
    match pe.2 with
    | .file _ _ => some (String.intercalate "/" pe.1)
    | _ => none

def pathHead? : Path → Option String
  | [] => none
  | h :: _ => some h

/-- The top-level names of the staging tree, first appearance order
(`fs::read_dir(&staging_dir)`, src/install.rs:128). -/
def topLevelNames (fs : FileTree) : List String :=
  (fs.filterMap fun pe => pathHead? pe.1).dedup

/-- Moving one top-level staging entry onto the root
(src/install.rs:128-143): an existing destination is deleted (recursively
for a directory, unlink for a file) and the staging entry is renamed onto
it, carrying its whole subtree. -/
def moveTop (root staging : FileTree) (n : String) : FileTree :=
  root.filter (fun pe => decide (pathHead? pe.1 ≠ some n)) ++
    staging.filter (fun pe => decide (pathHead? pe.1 = some n))

/-- The loop over `read_dir(staging)` applying `moveTop` for each top-level
entry. -/
def applyStaging (root staging : FileTree) : FileTree :=
  (topLevelNames staging).foldl (fun r n => moveTop r staging n) root

/-- Target-root state: the filesystem and the installed DB file. -/
structure RootState where
  fs : FileTree
  db : Option (List (String × Removal.InstalledPackage))
deriving DecidableEq

/-- `install_local_package` (src/install.rs:88-169): parse the manifest
(failing `PackageParse`), unpack `files.tar.zst` into `staging/`, record the
regular-file paths, move each top-level staging entry onto the root, then
load-or-create the installed DB, upsert the record and save. -/
def installLocalPackage (k : Kpkg) (root : RootState) :
    Except InstallError RootState :=
  match k.packageKdl with
  | none => .error .packageParse
  | some pkg =>
    let staging := unpackTree k.filesTar
    let files := stagingFiles staging
    let fs' := applyStaging root.fs staging
    let db0 := root.db.getD []
    let entry : Removal.InstalledPackage :=
      { name := pkg.name, version := pkg.version, arch := pkg.arch
      , flavour := pkg.flavor, depends := pkg.depends, files := files }
    .ok { fs := fs', db := some (amInsert db0 pkg.name entry) }

/-! ### Round-trip lemmas -/

theorem amGet_append {α β : Type} [DecidableEq α] (l1 l2 : List (α × β)) (k : α) :
    amGet (l1 ++ l2) k =
      match amGet l1 k with
      | some v => some v
      | none => amGet l2 k := by
  induction l1 with
  | nil => rfl
  | cons p rest ih =>
    rcases p with ⟨a, b⟩
    by_cases h : a = k <;> simp [amGet, h, ih]

theorem amGet_filter_of_key {α β : Type} [DecidableEq α]
    (P : α × β → Bool) (l : List (α × β)) (k : α)
    (h : ∀ v : β, P (k, v) = true) :
    amGet (l.filter P) k = amGet l k := by
  induction l with
  | nil => rfl
  | cons p rest ih =>
    rcases p with ⟨a, b⟩
    rw [List.filter_cons]
    by_cases ha : a = k
    · subst ha
      rw [if_pos (h b)]
      simp [amGet, ih]
    · by_cases hP : P (a, b) = true
      · rw [if_pos hP]
        simp only [amGet, if_neg ha]
        exact ih
      · rw [if_neg hP, ih]
        simp [amGet, ha]

theorem amGet_filter_none {α β : Type} [DecidableEq α]
    (P : α × β → Bool) (l : List (α × β)) (k : α)
    (h : ∀ v : β, P (k, v) = false) :
    amGet (l.filter P) k = none := by
  induction l with
  | nil => rfl
  | cons p rest ih =>
    rcases p with ⟨a, b⟩
    rw [List.filter_cons]
    by_cases ha : a = k
    · subst ha
      rw [if_neg (by simp [h b])]
      exact ih
    · by_cases hP : P (a, b) = true
      · rw [if_pos hP]
        simp only [amGet, if_neg ha]
        exact ih
      · rw [if_neg hP]
        exact ih

theorem amGet_some_mem {α β : Type} [DecidableEq α] (l : List (α × β)) (k : α)
    (v : β) (h : amGet l k = some v) : (k, v) ∈ l := by
  induction l with
  | nil => cases h
  | cons p rest ih =>
    rcases p with ⟨a, b⟩
    by_cases ha : a = k
    · subst ha
      simp only [amGet, if_pos rfl] at h
      injection h with h1
      subst h1
      exact List.mem_cons_self _ _
    · simp only [amGet, if_neg ha] at h
      exact List.mem_cons_of_mem _ (ih h)

theorem amGet_unpack_fold_not_mem (entries : List TarEntry) :
    ∀ (fs : FileTree) (p : Path), (∀ e ∈ entries, (tarToPair e).1 ≠ p) →
      amGet (entries.foldl
        (fun fs e => amInsert fs (tarToPair e).1 (tarToPair e).2) fs) p =
      amGet fs p := by
  induction entries with
  | nil => intro fs p _; rfl
  | cons e es ih =>
    intro fs p h
    rw [List.foldl_cons,
      ih _ p (fun e' he' => h e' (List.mem_cons_of_mem _ he'))]
    exact amGet_amInsert_ne fs (tarToPair e).1 p (tarToPair e).2
      (h e (List.mem_cons_self _ _))

theorem amGet_unpack_fold_mem (entries : List TarEntry) :
    ∀ (fs : FileTree) (e0 : TarEntry), e0 ∈ entries →
      (entries.map fun e => (tarToPair e).1).Nodup →
      amGet (entries.foldl
        (fun fs e => amInsert fs (tarToPair e).1 (tarToPair e).2) fs)
        (tarToPair e0).1 = some (tarToPair e0).2 := by
  induction entries with
  | nil => intro fs e0 h _; cases h
  | cons e es ih =>
    intro fs e0 h hnd
    rw [List.map_cons] at hnd
    rw [List.foldl_cons]
    rcases List.mem_cons.mp h with h | h
    · subst h
      have hno : ∀ e' ∈ es, (tarToPair e').1 ≠ (tarToPair e0).1 := by
        intro e' he' heq
        exact (List.nodup_cons.mp hnd).1
          (heq ▸ List.mem_map_of_mem (fun e => (tarToPair e).1) he')
      rw [amGet_unpack_fold_not_mem es _ _ hno]
      exact amGet_amInsert_self fs _ _
    · exact ih _ e0 h (List.nodup_cons.mp hnd).2

theorem amGet_unpackTree_file (entries : List TarEntry) (p : Path)
    (c : String) (m : Nat) (hmem : TarEntry.file p c m ∈ entries)
    (hnd : (entries.map fun e => (tarToPair e).1).Nodup) :
    amGet (unpackTree entries) p = some (.file c m) :=
  amGet_unpack_fold_mem entries [] (.file p c m) hmem hnd

theorem mem_buildFilesTar_file (t : FileTree) (p : Path) (c : String)
    (m : Nat) (hmem : (p, FsEntry.file c m) ∈ t) (hp : p ≠ []) :
    TarEntry.file p c m ∈ buildFilesTar t :=
  List.mem_filterMap.mpr ⟨(p, .file c m), hmem, by simp [hp]⟩

theorem buildFilesTar_paths_sublist (t : FileTree) :
    ((buildFilesTar t).map fun e => (tarToPair e).1).Sublist
      (t.map Prod.fst) := by
  induction t with
  | nil => simp [buildFilesTar]
  | cons pe rest ih =>
    rcases pe with ⟨p, entry⟩
    by_cases hp : p = []
    · have hstep : buildFilesTar ((p, entry) :: rest) = buildFilesTar rest := by
        simp [buildFilesTar, List.filterMap_cons, hp]
      rw [hstep, List.map_cons]
      exact ih.cons _
    · cases entry with
      | file c m =>
        have hstep : buildFilesTar ((p, FsEntry.file c m) :: rest) =
            .file p c m :: buildFilesTar rest := by
          simp [buildFilesTar, List.filterMap_cons, hp]
        rw [hstep, List.map_cons, List.map_cons]
        exact ih.cons₂ _
      | dir =>
        have hstep : buildFilesTar ((p, FsEntry.dir) :: rest) =
            .dir p 493 :: buildFilesTar rest := by
          simp [buildFilesTar, List.filterMap_cons, hp]
        rw [hstep, List.map_cons, List.map_cons]
        exact ih.cons₂ _
      | symlink tgt =>
        have hstep : buildFilesTar ((p, FsEntry.symlink tgt) :: rest) =
            .symlink p 511 tgt :: buildFilesTar rest := by
          simp [buildFilesTar, List.filterMap_cons, hp]
        rw [hstep, List.map_cons, List.map_cons]
        exact ih.cons₂ _

theorem amGet_moveTop_same (r staging : FileTree) (n : String) (p : Path)
    (hph : pathHead? p = some n) :
    amGet (moveTop r staging n) p = amGet staging p := by
  have hleft : amGet (r.filter (fun pe => decide (pathHead? pe.1 ≠ some n))) p
      = none := by
    apply amGet_filter_none
    intro v
    simp [hph]
  have hright : amGet
      (staging.filter (fun pe => decide (pathHead? pe.1 = some n))) p =
      amGet staging p := by
    apply amGet_filter_of_key
    intro v
    simp [hph]
  rw [moveTop, amGet_append, hleft]
  exact hright

theorem amGet_moveTop_other (r staging : FileTree) (n : String) (p : Path)
    (h : String) (hph : pathHead? p = some h) (hn : n ≠ h) :
    amGet (moveTop r staging n) p = amGet r p := by
  have hns : ¬ ((some h : Option String) = some n) := by
    intro he
    exact hn (Option.some.inj he).symm
  have hleft : amGet (r.filter (fun pe => decide (pathHead? pe.1 ≠ some n))) p
      = amGet r p := by
    apply amGet_filter_of_key
    intro v
    simp [hph, hns]
  have hright : amGet
      (staging.filter (fun pe => decide (pathHead? pe.1 = some n))) p =
      none := by
    apply amGet_filter_none
    intro v
    simp [hph, hns]
  rw [moveTop, amGet_append, hleft]
  rcases hr : amGet r p with _ | v
  · exact hright
  · rfl

theorem applyStaging_go (staging : FileTree) (p : Path) (h : String)
    (hph : pathHead? p = some h) :
    ∀ (ns : List String) (r : FileTree),
      ((h ∈ ns ∧ amGet r p = none) ∨ amGet r p = amGet staging p) →
      amGet (ns.foldl (fun r n => moveTop r staging n) r) p =
        amGet staging p := by
  intro ns
  induction ns with
  | nil =>
    intro r hr
    rcases hr with ⟨hmem, _⟩ | hr
    · exact absurd hmem (List.not_mem_nil h)
    · exact hr
  | cons n ns ih =>
    intro r hr
    rw [List.foldl_cons]
    by_cases hn : n = h
    · apply ih
      right
      subst hn
      exact amGet_moveTop_same r staging n p hph
    · apply ih
      have hval := amGet_moveTop_other r staging n p h hph hn
      rcases hr with ⟨hmem, hnone⟩ | hr
      · left
        refine ⟨?_, by rw [hval]; exact hnone⟩
        rcases List.mem_cons.mp hmem with hmem | hmem
        · exact absurd hmem.symm hn
        · exact hmem
      · right
        rw [hval]
        exact hr

theorem applyStaging_nil_lookup (staging : FileTree) (p : Path) (e : FsEntry)
    (hp : amGet staging p = some e) (hne : p ≠ []) :
    amGet (applyStaging [] staging) p = some e := by
  rcases hhead : pathHead? p with _ | h
  · exact absurd (by cases p with
      | nil => rfl
      | cons a as => cases hhead) hne
  · have hmem : h ∈ topLevelNames staging := by
      apply List.mem_dedup.mpr
      exact List.mem_filterMap.mpr ⟨(p, e), amGet_some_mem staging p e hp, hhead⟩
    rw [show amGet (applyStaging [] staging) p = amGet staging p from
      applyStaging_go staging p h hhead (topLevelNames staging) []
        (Or.inl ⟨hmem, rfl⟩)]
    exact hp

/-- C2: building a source tree with a valid `package.kdl` and a `files/`
directory into a `.kpkg`, then installing that `.kpkg` into an empty root,
produces, for each regular-file path under `files/`, a regular file at the
same root-relative path with identical contents (and mode). -/
theorem build_install_roundtrip (dir : String) (S : SourceTree)
    (pkg : Package) (t : FileTree) (K : Kpkg) (R : RootState)
    (p : Path) (c : String) (m : Nat)
    (hkdl : S.packageKdl = some (some pkg))
    (hfiles : S.filesDir = some t)
    (hnodup : (t.map Prod.fst).Nodup)
    (hbuild : build dir S = .ok K)
    (hinstall : installLocalPackage K { fs := [], db := none } = .ok R)
    (hmem : (p, FsEntry.file c m) ∈ t) (hp : p ≠ []) :
    amGet R.fs p = some (.file c m) := by
  rw [show build dir S =
      .ok { packageKdl := some pkg, filesTar := buildFilesTar t } by
    simp only [build, hkdl, hfiles]] at hbuild
  injection hbuild with hK
  subst hK
  rw [show installLocalPackage
      { packageKdl := some pkg, filesTar := buildFilesTar t }
      { fs := [], db := none } =
      .ok { fs := applyStaging [] (unpackTree (buildFilesTar t))
          , db := some (amInsert [] pkg.name
              { name := pkg.name, version := pkg.version, arch := pkg.arch
              , flavour := pkg.flavor, depends := pkg.depends
              , files := stagingFiles (unpackTree (buildFilesTar t)) }) }
    from rfl] at hinstall
  injection hinstall with hR
  subst hR
  have htar := mem_buildFilesTar_file t p c m hmem hp
  have hnd : ((buildFilesTar t).map fun e => (tarToPair e).1).Nodup :=
    List.Nodup.sublist (buildFilesTar_paths_sublist t) hnodup
  have hstage := amGet_unpackTree_file (buildFilesTar t) p c m htar hnd
  exact applyStaging_nil_lookup (unpackTree (buildFilesTar t)) p
    (.file c m) hstage hp

/-- Fixture manifest for the round-trip witness. -/
def rtPkg : Package :=
  { name := "foo", version := "0.1", arch := "x86_64"
  , flavor := "glibc-systemd", depends := ["glibc"], homepage := none
  , license := some "MIT" }

/-- Fixture `files/` walk: the root itself, two directories, one script. -/
def rtTree : FileTree :=
  [ ([], .dir), (["usr"], .dir), (["usr", "bin"], .dir)
  , (["usr", "bin", "foo"], .file "#!/bin/sh" 493) ]

/-- Fixture source tree for the round-trip witness. -/
def rtSource : SourceTree :=
  { packageKdl := some (some rtPkg), filesDir := some rtTree }

/-- The staging tree the fixture `.kpkg` unpacks to. -/
def rtStaging : FileTree := unpackTree (buildFilesTar rtTree)

/-- The root state produced by installing the fixture `.kpkg` into an empty
root. -/
def rtRoot : RootState :=
  { fs := applyStaging [] rtStaging
  , db := some (amInsert [] rtPkg.name
      { name := rtPkg.name, version := rtPkg.version, arch := rtPkg.arch
      , flavour := rtPkg.flavor, depends := rtPkg.depends
      , files := stagingFiles rtStaging }) }

/-- Witness for C2: the fixture script survives the build–install round
trip with its contents. -/
theorem build_install_roundtrip_witness :
    amGet rtRoot.fs ["usr", "bin", "foo"] = some (.file "#!/bin/sh" 493) :=
  build_install_roundtrip "foo" rtSource rtPkg rtTree
    { packageKdl := some rtPkg, filesTar := buildFilesTar rtTree } rtRoot
    ["usr", "bin", "foo"] "#!/bin/sh" 493
    (by rfl) (by rfl) (by decide) (by rfl) (by rfl) (by decide) (by decide)

end BuildInstall

end Koushou
